import Mathlib

/-!
Verification of the NFA simulator in `lab1/python/nfa.py`.

The shallow embedding below mirrors the Python source:
* Python strings are `List Char`; the source file's header guarantees that
  rule letters and input strings are ASCII without `'\0'`, `'\r'`, `'\n'`,
  so the character-class predicates are embedded with their ASCII meaning.
* Python exceptions (`ValueError`, `IndexError`, `KeyError`) are modelled by
  `Except String`.
* The `while stack` loop of `NFA.exec` is embedded as a fuel-indexed
  iteration `execLoop`; `execBound` is a concrete fuel amount that is proved
  sufficient, and `NFA.exec` runs the loop with that fuel.
-/

namespace PyNfa

/-- Python strings, as lists of (ASCII) characters. -/
abbrev PyStr := List Char

/-- A search configuration: `(state, remaining input)`, the visited-set key. -/
abbrev Cfg := Nat × PyStr

/-- A stack frame of `NFA.exec`: `(state, remaining input, step index)`. -/
abbrev Frame := Nat × PyStr × Nat

/-- The `path` dictionary of `NFA.exec`: step index ↦ `(state, remaining)`.
Insertion prepends; lookup returns the most recent binding, which matches
Python dict overwrite semantics. -/
abbrev Trace := List (Nat × Cfg)

/-- `RuleType` enum from the source. -/
inductive RuleType where
  | NORMAL
  | RANGE
  | SPECIAL
  | EPSILON
deriving DecidableEq, Repr

/-- A transition rule.  The field `by` of the Python class is called `by_`
(`by` is a Lean keyword).  Per the data model, `by_` holds the single
matching character (literal / range start / class tag) and `to_` (Python `to`) the range
end; epsilon rules carry no match data. -/
structure Rule where
  dst : Nat
  type : RuleType
  by_ : Char
  to_ : Char
deriving DecidableEq, Repr

/-- Python `str.isdigit` on the ASCII domain guaranteed by the source header. -/
def pyIsdigit (c : Char) : Bool := decide ('0' ≤ c ∧ c ≤ '9')

/-- Python `str.isalnum` on the ASCII domain guaranteed by the source header. -/
def pyIsalnum (c : Char) : Bool :=
  decide (('0' ≤ c ∧ c ≤ '9') ∨ ('A' ≤ c ∧ c ≤ 'Z') ∨ ('a' ≤ c ∧ c ≤ 'z'))

/-- Python `str.isspace` on the ASCII domain guaranteed by the source header
(space, `\t`, `\n`, `\v`, `\f`, `\r` and the separator controls 0x1c–0x1f). -/
def pyIsspace (c : Char) : Bool :=
  decide (c = ' ' ∨ c = '\t' ∨ c = '\n' ∨ c = '\x0b' ∨ c = '\x0c' ∨ c = '\r' ∨
          c = '\x1c' ∨ c = '\x1d' ∨ c = '\x1e' ∨ c = '\x1f')

deriving instance DecidableEq for Except

/-- `Rule.match` from the source (named `matches` because `match` is a Lean
keyword): decides whether the rule matches character `c`, raising
`ValueError` on an epsilon rule or an unknown class tag. -/
def Rule.matches (r : Rule) (c : Char) : Except String Bool :=
  match r.type with
  | RuleType.NORMAL => Except.ok (r.by_ == c)
  | RuleType.RANGE => Except.ok (decide (r.by_.toNat ≤ c.toNat) && decide (c.toNat ≤ r.to_.toNat))
  | RuleType.SPECIAL =>
      if r.by_ == 'd' then Except.ok (pyIsdigit c)
      else if r.by_ == 'w' then Except.ok (pyIsalnum c || c == '_')
      else if r.by_ == 's' then Except.ok (pyIsspace c)
      else if r.by_ == 'D' then Except.ok (!pyIsdigit c)
      else if r.by_ == 'W' then Except.ok (!pyIsalnum c && !(c == '_'))
      else if r.by_ == 'S' then Except.ok (!pyIsspace c)
      else if r.by_ == '.' then Except.ok (!(c == '\n') && !(c == '\r'))
      else Except.error "ValueError: unknown special character"
  | RuleType.EPSILON => Except.error "ValueError: match called on epsilon rule"

/-- The `Path` result class: visited states and the symbol consumed at each
step (the empty string for an epsilon step). -/
structure Path where
  states : List Nat
  consumes : List PyStr
deriving DecidableEq, Repr

/-- The `NFA` class: state count, final-state marks, per-state rule lists. -/
structure NFA where
  num_states : Nat
  is_final : List Bool
  rules : List (List Rule)
deriving Repr

/-- Python list subscription `xs[i]` for a natural index: the element, or
`IndexError` when out of range. -/
def pyIndex {α : Type} (xs : List α) (i : Nat) : Except String α :=
  match xs.get? i with
  | some x => Except.ok x
  | none => Except.error "IndexError"

/-- Dict store `path[step] = v` (prepend; most recent binding wins). -/
def traceSet (t : Trace) (k : Nat) (v : Cfg) : Trace := (k, v) :: t

/-- Dict lookup `path[k]`, raising `KeyError` when the key is absent. -/
def traceGet : Trace → Nat → Except String Cfg
  | [], _ => Except.error "KeyError"
  | (k', v) :: rest, k => if k' = k then Except.ok v else traceGet rest k

/-- Python `max(path.keys())`, raising `ValueError` on an empty dict. -/
def traceMax : Trace → Except String Nat
  | [] => Except.error "ValueError: max of empty"
  | (k, _) :: rest => Except.ok (rest.foldl (fun m p => max m p.1) k)

/-- The `for i in range(step, 0, -1)` loop of `NFA.backtrace`: collects the
states and consumed symbols for steps `n, n-1, …, 1` in that order.
`path[i-1][1][0]` on an empty remaining string raises `IndexError`. -/
def backtraceAux (path : Trace) : Nat → Except String (List Nat × List PyStr)
  | 0 => Except.ok ([], [])
  | i + 1 =>
    match traceGet path (i + 1), traceGet path i with
    | Except.error e, _ => Except.error e
    | _, Except.error e => Except.error e
    | Except.ok cur, Except.ok prev =>
      match (if cur.2 == prev.2 then Except.ok ([] : PyStr)
             else match prev.2 with
                  | [] => Except.error "IndexError"
                  | c :: _ => Except.ok [c]) with
      | Except.error e => Except.error e
      | Except.ok con =>
        match backtraceAux path i with
        | Except.error e => Except.error e
        | Except.ok (sts, cons) => Except.ok (cur.1 :: sts, con :: cons)

/-- `NFA.backtrace`: rebuild a `Path` from the recorded trace, starting at
`max(path.keys())`, appending state `0`, and reversing both lists. -/
def NFA.backtrace (path : Trace) : Except String Path :=
  match traceMax path with
  | Except.error e => Except.error e
  | Except.ok step =>
    match backtraceAux path step with
    | Except.error e => Except.error e
    | Except.ok (states, consumes) =>
      Except.ok ⟨(states ++ [0]).reverse, consumes.reverse⟩

/-- The `for rule in reversed(self.rules[q])` body of `NFA.exec`, processing
an already-reversed rule list: an epsilon rule pushes `(dst, remaining)`
unless that configuration is in the visited set (marking it visited when
pushed); any other rule pushes `(dst, remaining[1:])` when `remaining` is
nonempty and the rule matches its first character.  A `Rule.matches` error
propagates. -/
def execPush (remaining : PyStr) (step : Nat) :
    List Rule → List Frame × List Cfg → Except String (List Frame × List Cfg)
  | [], sv => Except.ok sv
  | r :: rs, (stack, visited) =>
    match r.type with
    | RuleType.EPSILON =>
      if (r.dst, remaining) ∈ visited then
        execPush remaining step rs (stack, visited)
      else
        execPush remaining step rs
          ((r.dst, remaining, step + 1) :: stack, (r.dst, remaining) :: visited)
    | _ =>
      match remaining with
      | [] => execPush remaining step rs (stack, visited)
      | c :: cs =>
        match r.matches c with
        | Except.error e => Except.error e
        | Except.ok true => execPush remaining step rs ((r.dst, cs, step + 1) :: stack, visited)
        | Except.ok false => execPush remaining step rs (stack, visited)

/-- The `while stack` loop of `NFA.exec`, with explicit fuel.  Each
iteration pops a frame, records it in the trace, returns the backtraced
path on acceptance (final state, empty remaining input), and otherwise
pushes the successors of the frame.  `none` means the fuel ran out (proved
unreachable for the fuel `execBound` below). -/
def execLoop (nfa : NFA) : Nat → List Frame → Trace → List Cfg →
    Option (Except String (Option Path))
  | 0, _, _, _ => none
  | fuel + 1, stack, path, visited =>
    match stack with
    | [] => some (Except.ok none)
    | (q, remaining, step) :: rest =>
      let path2 := traceSet path step (q, remaining)
      match pyIndex nfa.is_final q with
      | Except.error e => some (Except.error e)
      | Except.ok fin =>
        if fin && remaining.isEmpty then
          match NFA.backtrace path2 with
          | Except.error e => some (Except.error e)
          | Except.ok p => some (Except.ok (some p))
        else
          match pyIndex nfa.rules q with
          | Except.error e => some (Except.error e)
          | Except.ok rs =>
            match execPush remaining step rs.reverse (rest, visited) with
            | Except.error e => some (Except.error e)
            | Except.ok (stack2, visited2) => execLoop nfa fuel stack2 path2 visited2

/-- Total number of rules of the automaton. -/
def totalRules (nfa : NFA) : Nat := (nfa.rules.map List.length).sum

/-- Base of the termination measure, at least 2 and larger than any
per-state rule count. -/
def ruleBase (nfa : NFA) : Nat := totalRules nfa + 2

/-- All rule destinations of the automaton. -/
def dstList (nfa : NFA) : List Nat := (nfa.rules.flatten).map Rule.dst

/-- Every configuration an epsilon transition could ever add to the visited
set: a rule destination paired with a suffix of the input. -/
def epsCfgs (nfa : NFA) (text : PyStr) : Finset Cfg :=
  (dstList nfa).toFinset ×ˢ (text.tails).toFinset

/-- Weight of one stack frame in the termination measure. -/
def frameWt (nfa : NFA) (f : Frame) : Nat := ruleBase nfa ^ (1 + f.2.1.length)

/-- Total weight of the stack in the termination measure. -/
def stackWt (nfa : NFA) (stack : List Frame) : Nat := (stack.map (frameWt nfa)).sum

/-- Potential of the visited set: epsilon configurations not yet visited,
each weighted heavier than any single frame. -/
def visPot (nfa : NFA) (text : PyStr) (visited : List Cfg) : Nat :=
  ruleBase nfa ^ (text.length + 2) * ((epsCfgs nfa text) \ visited.toFinset).card

/-- The termination measure of the `exec` loop: it strictly decreases at
every iteration. -/
def execMeasure (nfa : NFA) (text : PyStr) (stack : List Frame) (visited : List Cfg) : Nat :=
  stackWt nfa stack + visPot nfa text visited

/-- Fuel that is provably sufficient for `execLoop` to finish. -/
def execBound (nfa : NFA) (text : PyStr) : Nat :=
  execMeasure nfa text [(0, text, 0)] [] + 1

/-- `NFA.exec`: run the search from `(0, text, 0)` with empty trace and
visited set.  The fuel `execBound` is proved sufficient, so the
`"fuel exhausted"` branch is unreachable. -/
def NFA.exec (nfa : NFA) (text : PyStr) : Except String (Option Path) :=
  match execLoop nfa (execBound nfa text) [(0, text, 0)] [] [] with
  | some r => r
  | none => Except.error "fuel exhausted"

/-- Rules leaving state `q` (empty when `q` is out of range; `NFA.exec`
raises `IndexError` before ever using that default). -/
def NFA.rulesAt (nfa : NFA) (q : Nat) : List Rule := (nfa.rules.get? q).getD []

/-- Accepting runs of length at most `n` from configuration `(q, rem)`:
either the configuration is already accepting (state final by the same
`is_final[q]` check the code performs, remaining input empty), or one
transition of the automaton leads to a configuration accepting within
`n` further steps. -/
inductive AccRunN (nfa : NFA) : Nat → Nat → PyStr → Prop where
  | final (n q) (h : pyIndex nfa.is_final q = Except.ok true) : AccRunN nfa n q []
  | eps (n q rem r) (hr : r ∈ nfa.rulesAt q) (ht : r.type = RuleType.EPSILON)
      (h : AccRunN nfa n r.dst rem) : AccRunN nfa (n + 1) q rem
  | cons (n q c cs r) (hr : r ∈ nfa.rulesAt q) (ht : r.type ≠ RuleType.EPSILON)
      (hm : r.matches c = Except.ok true)
      (h : AccRunN nfa n r.dst cs) : AccRunN nfa (n + 1) q (c :: cs)

/-- An accepting run exists from configuration `(q, rem)`. -/
def AccRun (nfa : NFA) (q : Nat) (rem : PyStr) : Prop := ∃ n, AccRunN nfa n q rem

/-- Configurations reachable from the initial configuration `(0, text)` by
transitions of the automaton. -/
inductive Reach (nfa : NFA) (text : PyStr) : Nat → PyStr → Prop where
  | init : Reach nfa text 0 text
  | eps (q rem r) (h : Reach nfa text q rem) (hr : r ∈ nfa.rulesAt q)
      (ht : r.type = RuleType.EPSILON) : Reach nfa text r.dst rem
  | step (q c cs r) (h : Reach nfa text q (c :: cs)) (hr : r ∈ nfa.rulesAt q)
      (ht : r.type ≠ RuleType.EPSILON) (hm : r.matches c = Except.ok true) :
      Reach nfa text r.dst cs

/-- Well-formedness invariant of an automaton, as stated in the data model:
a positive state count, marker and rule tables of that length, and every
rule destination within range. -/
def NFA.WF (nfa : NFA) : Prop :=
  0 < nfa.num_states ∧ nfa.is_final.length = nfa.num_states ∧
  nfa.rules.length = nfa.num_states ∧
  ∀ rs ∈ nfa.rules, ∀ r ∈ rs, r.dst < nfa.num_states

/-- The class tags `Rule.match` understands. -/
def specialTags : List Char := ['d', 'w', 's', 'D', 'W', 'S', '.']

/-- Every special rule of the automaton carries a known class tag. -/
def NFA.KnownTags (nfa : NFA) : Prop :=
  ∀ rs ∈ nfa.rules, ∀ r ∈ rs, r.type = RuleType.SPECIAL → r.by_ ∈ specialTags

/-- Some frame of the stack is accepting within `n` steps. -/
def StackAcc (nfa : NFA) (n : Nat) (stack : List Frame) : Prop :=
  ∃ f ∈ stack, AccRunN nfa n f.1 f.2.1

/-- Invariant tying the visited set to the stack: any visited configuration
that accepts within `n` steps is matched by a stack frame accepting within
`n` steps. -/
def VisInv (nfa : NFA) (stack : List Frame) (visited : List Cfg) : Prop :=
  ∀ n cfg, cfg ∈ visited → AccRunN nfa n cfg.1 cfg.2 → StackAcc nfa n stack

/-- The recorded trace holds, at keys `0..s`, a genuine chain of
configurations from `(0, text)` to `(q, rem)` in which each step keeps the
remaining input or drops exactly its first character. -/
def ChainFrame (text : PyStr) (path : Trace) : Nat → Nat → PyStr → Prop
  | 0, q, rem => traceGet path 0 = Except.ok (q, rem) ∧ q = 0 ∧ rem = text
  | s + 1, q, rem => traceGet path (s + 1) = Except.ok (q, rem) ∧
      ∃ q2 rem2, ChainFrame text path s q2 rem2 ∧ (rem2 = rem ∨ ∃ c, rem2 = c :: rem)

/-- A stack frame that is about to be recorded: its ancestors at keys
`0..step-1` are already correctly recorded in the trace. -/
def ChainPre (text : PyStr) (path : Trace) (f : Frame) : Prop :=
  (f.2.2 = 0 ∧ f.1 = 0 ∧ f.2.1 = text) ∨
  (∃ s, f.2.2 = s + 1 ∧ ∃ q2 rem2, ChainFrame text path s q2 rem2 ∧
    (rem2 = f.2.1 ∨ ∃ c, rem2 = c :: f.2.1))

/-- Invariant of the search loop used for path correctness: step indices on
the stack never increase downwards, and every frame has its ancestor chain
recorded. -/
def StackChain (text : PyStr) (stack : List Frame) (path : Trace) : Prop :=
  List.Pairwise (fun f g => g.2.2 ≤ f.2.2) stack ∧ ∀ f ∈ stack, ChainPre text path f

/-- The loop states `(stack, path, visited)` reachable during
`NFA.exec nfa text`, observed at the top of each `while` iteration. -/
inductive ExecReach (nfa : NFA) (text : PyStr) : List Frame → Trace → List Cfg → Prop where
  | init : ExecReach nfa text [(0, text, 0)] [] []
  | step (q : Nat) (rem : PyStr) (s : Nat) (rest : List Frame) (path : Trace)
      (visited : List Cfg) (fin : Bool) (rs : List Rule) (stack2 : List Frame)
      (vis2 : List Cfg)
      (h : ExecReach nfa text ((q, rem, s) :: rest) path visited)
      (hfin : pyIndex nfa.is_final q = Except.ok fin)
      (hacc : (fin && rem.isEmpty) = false)
      (hrs : pyIndex nfa.rules q = Except.ok rs)
      (hpush : execPush rem s rs.reverse (rest, visited) = Except.ok (stack2, vis2)) :
      ExecReach nfa text stack2 (traceSet path s (q, rem)) vis2

/-- Two-state automaton accepting exactly "a": rule `0->1 a`, state 1 final. -/
def nfaSimple : NFA :=
  ⟨2, [false, true], [[⟨1, RuleType.NORMAL, 'a', ' '⟩], []]⟩

/-- One-state automaton whose start state is final. -/
def nfaUnit : NFA := ⟨1, [true], [[]]⟩

/-- Automaton exhibiting the stale-trace bug of `backtrace`: from state 0,
rule `0->1 a` leads to a dead epsilon chain `1->2 \e`, `2->3 \e` explored
first, and rule `0->4 a` reaches the final state 4.  On input "a" the
accepting step is 1 but `max(path.keys())` is 3, so the returned path ends
in the stale non-final state 3. -/
def nfaStale : NFA :=
  ⟨5, [false, false, false, false, true],
   [[⟨1, RuleType.NORMAL, 'a', ' '⟩, ⟨4, RuleType.NORMAL, 'a', ' '⟩],
    [⟨2, RuleType.EPSILON, ' ', ' '⟩],
    [⟨3, RuleType.EPSILON, ' ', ' '⟩],
    [],
    []]⟩

/-- Automaton on which `exec` raises `IndexError` on an accepted input: the
dead branch `0->1 \e`, `1->2 \e`, `2->3 a` records remaining strings
"a","a","" at steps 1,2,3; the accepting branch `0->4 a` accepts at step 1,
and `backtrace` then reads the stale entries and indexes into an empty
remaining string. -/
def nfaCrash : NFA :=
  ⟨5, [false, false, false, false, true],
   [[⟨1, RuleType.EPSILON, ' ', ' '⟩, ⟨4, RuleType.NORMAL, 'a', ' '⟩],
    [⟨2, RuleType.EPSILON, ' ', ' '⟩],
    [⟨3, RuleType.NORMAL, 'a', ' '⟩],
    [],
    []]⟩

/-- Automaton with an epsilon self-loop on the start state. -/
def nfaEpsLoop : NFA :=
  ⟨2, [false, true], [[⟨0, RuleType.EPSILON, ' ', ' '⟩, ⟨1, RuleType.NORMAL, 'a', ' '⟩], []]⟩

/-! ### Helper lemmas about `execPush` -/

/-- Case analysis for one step of `execPush`. -/
theorem execPush_step_cases (rem : PyStr) (step : Nat) (r : Rule) (rs : List Rule)
    (stack : List Frame) (visited : List Cfg) (st2 : List Frame) (vis2 : List Cfg)
    (h : execPush rem step (r :: rs) (stack, visited) = Except.ok (st2, vis2)) :
    (r.type = RuleType.EPSILON ∧ (r.dst, rem) ∈ visited ∧
      execPush rem step rs (stack, visited) = Except.ok (st2, vis2)) ∨
    (r.type = RuleType.EPSILON ∧ (r.dst, rem) ∉ visited ∧
      execPush rem step rs ((r.dst, rem, step + 1) :: stack, (r.dst, rem) :: visited) =
        Except.ok (st2, vis2)) ∨
    (r.type ≠ RuleType.EPSILON ∧ rem = [] ∧
      execPush rem step rs (stack, visited) = Except.ok (st2, vis2)) ∨
    (r.type ≠ RuleType.EPSILON ∧ ∃ c cs, rem = c :: cs ∧ r.matches c = Except.ok true ∧
      execPush rem step rs ((r.dst, cs, step + 1) :: stack, visited) = Except.ok (st2, vis2)) ∨
    (r.type ≠ RuleType.EPSILON ∧ ∃ c cs, rem = c :: cs ∧ r.matches c = Except.ok false ∧
      execPush rem step rs (stack, visited) = Except.ok (st2, vis2)) := by
  cases htr : r.type with
  | EPSILON =>
    simp only [execPush, htr] at h
    by_cases hmem : (r.dst, rem) ∈ visited
    · simp only [if_pos hmem] at h
      exact Or.inl ⟨rfl, hmem, h⟩
    · simp only [if_neg hmem] at h
      exact Or.inr (Or.inl ⟨rfl, hmem, h⟩)
  | NORMAL =>
    cases rem with
    | nil =>
      simp only [execPush, htr] at h
      exact Or.inr (Or.inr (Or.inl ⟨by simp [htr], rfl, h⟩))
    | cons c cs =>
      simp only [execPush, htr] at h
      cases hm : r.matches c with
      | error e => rw [hm] at h; cases h
      | ok b =>
        rw [hm] at h
        cases b with
        | true => exact Or.inr (Or.inr (Or.inr (Or.inl ⟨by simp [htr], c, cs, rfl, hm, h⟩)))
        | false => exact Or.inr (Or.inr (Or.inr (Or.inr ⟨by simp [htr], c, cs, rfl, hm, h⟩)))
  | RANGE =>
    cases rem with
    | nil =>
      simp only [execPush, htr] at h
      exact Or.inr (Or.inr (Or.inl ⟨by simp [htr], rfl, h⟩))
    | cons c cs =>
      simp only [execPush, htr] at h
      cases hm : r.matches c with
      | error e => rw [hm] at h; cases h
      | ok b =>
        rw [hm] at h
        cases b with
        | true => exact Or.inr (Or.inr (Or.inr (Or.inl ⟨by simp [htr], c, cs, rfl, hm, h⟩)))
        | false => exact Or.inr (Or.inr (Or.inr (Or.inr ⟨by simp [htr], c, cs, rfl, hm, h⟩)))
  | SPECIAL =>
    cases rem with
    | nil =>
      simp only [execPush, htr] at h
      exact Or.inr (Or.inr (Or.inl ⟨by simp [htr], rfl, h⟩))
    | cons c cs =>
      simp only [execPush, htr] at h
      cases hm : r.matches c with
      | error e => rw [hm] at h; cases h
      | ok b =>
        rw [hm] at h
        cases b with
        | true => exact Or.inr (Or.inr (Or.inr (Or.inl ⟨by simp [htr], c, cs, rfl, hm, h⟩)))
        | false => exact Or.inr (Or.inr (Or.inr (Or.inr ⟨by simp [htr], c, cs, rfl, hm, h⟩)))

/-- `execPush` only prepends frames and only grows the visited set. -/
theorem execPush_shape (rem : PyStr) (step : Nat) :
    ∀ (rs : List Rule) (stack : List Frame) (visited : List Cfg) (st2 : List Frame)
      (vis2 : List Cfg),
      execPush rem step rs (stack, visited) = Except.ok (st2, vis2) →
      (∃ pre, st2 = pre ++ stack) ∧ ∀ c ∈ visited, c ∈ vis2 := by
  intro rs
  induction rs with
  | nil =>
    intro stack visited st2 vis2 h
    simp only [execPush, Except.ok.injEq, Prod.mk.injEq] at h
    exact ⟨⟨[], by simp [h.1]⟩, fun c hc => h.2 ▸ hc⟩
  | cons r rs ih =>
    intro stack visited st2 vis2 h
    rcases execPush_step_cases rem step r rs stack visited st2 vis2 h with
      ⟨_, _, h⟩ | ⟨_, _, h⟩ | ⟨_, _, h⟩ | ⟨_, c, cs, _, _, h⟩ | ⟨_, c, cs, _, _, h⟩
    · exact ih stack visited st2 vis2 h
    · obtain ⟨⟨pre, hpre⟩, hvis⟩ := ih _ _ st2 vis2 h
      refine ⟨⟨pre ++ [(r.dst, rem, step + 1)], by simp [hpre]⟩, ?_⟩
      exact fun c hc => hvis c (List.mem_cons_of_mem _ hc)
    · exact ih stack visited st2 vis2 h
    · obtain ⟨⟨pre, hpre⟩, hvis⟩ := ih _ _ st2 vis2 h
      exact ⟨⟨pre ++ [(r.dst, cs, step + 1)], by simp [hpre]⟩, hvis⟩
    · exact ih stack visited st2 vis2 h

/-- Every frame produced by `execPush` is an old frame or arises from one of
the processed rules in the way the code pushes it. -/
theorem execPush_origin (rem : PyStr) (step : Nat) :
    ∀ (rs : List Rule) (stack : List Frame) (visited : List Cfg) (st2 : List Frame)
      (vis2 : List Cfg),
      execPush rem step rs (stack, visited) = Except.ok (st2, vis2) →
      ∀ f ∈ st2, f ∈ stack ∨ ∃ r ∈ rs, f.1 = r.dst ∧ f.2.2 = step + 1 ∧
        ((r.type = RuleType.EPSILON ∧ f.2.1 = rem) ∨
         (r.type ≠ RuleType.EPSILON ∧ ∃ c cs, rem = c :: cs ∧ f.2.1 = cs ∧
           r.matches c = Except.ok true)) := by
  intro rs
  induction rs with
  | nil =>
    intro stack visited st2 vis2 h f hf
    simp only [execPush, Except.ok.injEq, Prod.mk.injEq] at h
    exact Or.inl (h.1 ▸ hf)
  | cons r rs ih =>
    intro stack visited st2 vis2 h f hf
    rcases execPush_step_cases rem step r rs stack visited st2 vis2 h with
      ⟨htr, _, h⟩ | ⟨htr, _, h⟩ | ⟨_, _, h⟩ | ⟨htr, c, cs, hrem, hm, h⟩ | ⟨_, _, _, _, _, h⟩
    · rcases ih stack visited st2 vis2 h f hf with hold | ⟨r2, hr2, rest⟩
      · exact Or.inl hold
      · exact Or.inr ⟨r2, List.mem_cons_of_mem r hr2, rest⟩
    · rcases ih _ _ st2 vis2 h f hf with hold | ⟨r2, hr2, rest⟩
      · rcases List.mem_cons.mp hold with heq | hold
        · exact Or.inr ⟨r, List.mem_cons_self r rs, by simp [heq, htr]⟩
        · exact Or.inl hold
      · exact Or.inr ⟨r2, List.mem_cons_of_mem r hr2, rest⟩
    · rcases ih stack visited st2 vis2 h f hf with hold | ⟨r2, hr2, rest⟩
      · exact Or.inl hold
      · exact Or.inr ⟨r2, List.mem_cons_of_mem r hr2, rest⟩
    · rcases ih _ _ st2 vis2 h f hf with hold | ⟨r2, hr2, rest⟩
      · rcases List.mem_cons.mp hold with heq | hold
        · refine Or.inr ⟨r, List.mem_cons_self r rs, by simp [heq], by simp [heq], ?_⟩
          exact Or.inr ⟨htr, c, cs, hrem, by simp [heq], hm⟩
        · exact Or.inl hold
      · exact Or.inr ⟨r2, List.mem_cons_of_mem r hr2, rest⟩
    · rcases ih stack visited st2 vis2 h f hf with hold | ⟨r2, hr2, rest⟩
      · exact Or.inl hold
      · exact Or.inr ⟨r2, List.mem_cons_of_mem r hr2, rest⟩

/-- Every configuration in the visited set after `execPush` was already
visited or sits on the produced stack as a frame. -/
theorem execPush_visited_mem (rem : PyStr) (step : Nat) :
    ∀ (rs : List Rule) (stack : List Frame) (visited : List Cfg) (st2 : List Frame)
      (vis2 : List Cfg),
      execPush rem step rs (stack, visited) = Except.ok (st2, vis2) →
      ∀ cfg ∈ vis2, cfg ∈ visited ∨ ∃ s2, (cfg.1, cfg.2, s2) ∈ st2 := by
  intro rs
  induction rs with
  | nil =>
    intro stack visited st2 vis2 h cfg hcfg
    simp only [execPush, Except.ok.injEq, Prod.mk.injEq] at h
    exact Or.inl (h.2 ▸ hcfg)
  | cons r rs ih =>
    intro stack visited st2 vis2 h cfg hcfg
    rcases execPush_step_cases rem step r rs stack visited st2 vis2 h with
      ⟨_, _, h⟩ | ⟨_, _, h⟩ | ⟨_, _, h⟩ | ⟨_, c, cs, _, _, h⟩ | ⟨_, _, _, _, _, h⟩
    · exact ih stack visited st2 vis2 h cfg hcfg
    · rcases ih _ _ st2 vis2 h cfg hcfg with hold | hst
      · rcases List.mem_cons.mp hold with heq | hold
        · refine Or.inr ⟨step + 1, ?_⟩
          obtain ⟨pre, hpre⟩ := (execPush_shape rem step rs _ _ st2 vis2 h).1
          rw [heq]
          exact hpre ▸ List.mem_append_right pre (List.mem_cons_self _ _)
        · exact Or.inl hold
      · exact Or.inr hst
    · exact ih stack visited st2 vis2 h cfg hcfg
    · rcases ih _ _ st2 vis2 h cfg hcfg with hold | hst
      · exact Or.inl hold
      · exact Or.inr hst
    · exact ih stack visited st2 vis2 h cfg hcfg

/-- Completeness of `execPush` for epsilon rules: the destination
configuration ends up on the stack, unless it was already visited. -/
theorem execPush_eps_complete (rem : PyStr) (step : Nat) :
    ∀ (rs : List Rule) (stack : List Frame) (visited : List Cfg) (st2 : List Frame)
      (vis2 : List Cfg),
      execPush rem step rs (stack, visited) = Except.ok (st2, vis2) →
      ∀ r ∈ rs, r.type = RuleType.EPSILON →
        (r.dst, rem, step + 1) ∈ st2 ∨ (r.dst, rem) ∈ visited := by
  intro rs
  induction rs with
  | nil => intro stack visited st2 vis2 h r hr; cases hr
  | cons r0 rs ih =>
    intro stack visited st2 vis2 h r hr htr
    rcases execPush_step_cases rem step r0 rs stack visited st2 vis2 h with
      ⟨ht0, hmem, h⟩ | ⟨ht0, hmem, h⟩ | ⟨ht0, _, h⟩ | ⟨ht0, c, cs, _, _, h⟩ |
      ⟨ht0, _, _, _, _, h⟩
    · rcases List.mem_cons.mp hr with heq | hr
      · subst heq; exact Or.inr hmem
      · exact ih stack visited st2 vis2 h r hr htr
    · rcases List.mem_cons.mp hr with heq | hr
      · subst heq
        obtain ⟨pre, hpre⟩ := (execPush_shape rem step rs _ _ st2 vis2 h).1
        exact Or.inl (hpre ▸ List.mem_append_right pre (List.mem_cons_self _ _))
      · rcases ih _ _ st2 vis2 h r hr htr with hin | hin
        · exact Or.inl hin
        · rcases List.mem_cons.mp hin with heq2 | hin
          · obtain ⟨pre, hpre⟩ := (execPush_shape rem step rs _ _ st2 vis2 h).1
            refine Or.inl ?_
            have heq3 : (r.dst, rem, step + 1) = (r0.dst, rem, step + 1) := by
              have h1 : r.dst = r0.dst := congrArg Prod.fst heq2
              rw [h1]
            rw [heq3]
            exact hpre ▸ List.mem_append_right pre (List.mem_cons_self _ _)
          · exact Or.inr hin
    · rcases List.mem_cons.mp hr with heq | hr
      · subst heq; exact absurd htr ht0
      · exact ih stack visited st2 vis2 h r hr htr
    · rcases List.mem_cons.mp hr with heq | hr
      · subst heq; exact absurd htr ht0
      · rcases ih _ _ st2 vis2 h r hr htr with hin | hin
        · exact Or.inl hin
        · exact Or.inr hin
    · rcases List.mem_cons.mp hr with heq | hr
      · subst heq; exact absurd htr ht0
      · exact ih stack visited st2 vis2 h r hr htr

/-- Completeness of `execPush` for consuming rules: a matching rule always
pushes its successor frame. -/
theorem execPush_cons_complete (rem : PyStr) (step : Nat) :
    ∀ (rs : List Rule) (stack : List Frame) (visited : List Cfg) (st2 : List Frame)
      (vis2 : List Cfg),
      execPush rem step rs (stack, visited) = Except.ok (st2, vis2) →
      ∀ r ∈ rs, ∀ c cs, rem = c :: cs → r.type ≠ RuleType.EPSILON →
        r.matches c = Except.ok true → (r.dst, cs, step + 1) ∈ st2 := by
  intro rs
  induction rs with
  | nil => intro stack visited st2 vis2 h r hr; cases hr
  | cons r0 rs ih =>
    intro stack visited st2 vis2 h r hr c cs hrem htr hm
    rcases execPush_step_cases rem step r0 rs stack visited st2 vis2 h with
      ⟨ht0, hmem, h⟩ | ⟨ht0, hmem, h⟩ | ⟨ht0, hnil, h⟩ | ⟨ht0, c2, cs2, hrem2, hm2, h⟩ |
      ⟨ht0, c2, cs2, hrem2, hm2, h⟩
    · rcases List.mem_cons.mp hr with heq | hr
      · subst heq; exact absurd ht0 htr
      · exact ih stack visited st2 vis2 h r hr c cs hrem htr hm
    · rcases List.mem_cons.mp hr with heq | hr
      · subst heq; exact absurd ht0 htr
      · exact ih _ _ st2 vis2 h r hr c cs hrem htr hm
    · rcases List.mem_cons.mp hr with heq | hr
      · subst heq; rw [hrem] at hnil; cases hnil
      · exact ih stack visited st2 vis2 h r hr c cs hrem htr hm
    · rcases List.mem_cons.mp hr with heq | hr
      · subst heq
        obtain ⟨pre, hpre⟩ := (execPush_shape rem step rs _ _ st2 vis2 h).1
        have hcast : c :: cs = c2 :: cs2 := by rw [← hrem, hrem2]
        injection hcast with h1 h2
        rw [h2]
        exact hpre ▸ List.mem_append_right pre (List.mem_cons_self _ _)
      · exact ih _ _ st2 vis2 h r hr c cs hrem htr hm
    · rcases List.mem_cons.mp hr with heq | hr
      · subst heq
        have hcast : c :: cs = c2 :: cs2 := by rw [← hrem, hrem2]
        injection hcast with h1 h2
        rw [← h1] at hm2; rw [hm2] at hm; cases hm
      · exact ih stack visited st2 vis2 h r hr c cs hrem htr hm

/-- A non-epsilon rule with a known tag never makes `Rule.matches` raise. -/
theorem matches_isOk (r : Rule) (c : Char) (ht : r.type ≠ RuleType.EPSILON)
    (hs : r.type = RuleType.SPECIAL → r.by_ ∈ specialTags) :
    ∃ b, r.matches c = Except.ok b := by
  cases htr : r.type with
  | NORMAL => simp [Rule.matches, htr]
  | RANGE => simp [Rule.matches, htr]
  | EPSILON => exact absurd htr ht
  | SPECIAL =>
    have hb := hs htr
    simp only [specialTags, List.mem_cons, List.not_mem_nil, or_false] at hb
    rcases hb with hb | hb | hb | hb | hb | hb | hb <;> simp [Rule.matches, htr, hb]

/-- `execPush` cannot raise when all special rules carry known tags. -/
theorem execPush_isOk (rem : PyStr) (step : Nat) :
    ∀ (rs : List Rule) (sv : List Frame × List Cfg),
      (∀ r ∈ rs, r.type = RuleType.SPECIAL → r.by_ ∈ specialTags) →
      ∃ out, execPush rem step rs sv = Except.ok out := by
  intro rs
  induction rs with
  | nil => intro sv _; exact ⟨sv, rfl⟩
  | cons r rs ih =>
    intro sv htags
    obtain ⟨stack, visited⟩ := sv
    have htags2 : ∀ r2 ∈ rs, r2.type = RuleType.SPECIAL → r2.by_ ∈ specialTags :=
      fun r2 hr2 => htags r2 (List.mem_cons_of_mem r hr2)
    cases htr : r.type with
    | EPSILON =>
      simp only [execPush, htr]
      by_cases hmem : (r.dst, rem) ∈ visited
      · simp only [if_pos hmem]; exact ih _ htags2
      · simp only [if_neg hmem]; exact ih _ htags2
    | NORMAL =>
      cases rem with
      | nil => simp only [execPush, htr]; exact ih _ htags2
      | cons c cs =>
        simp only [execPush, htr]
        obtain ⟨b, hb⟩ := matches_isOk r c (by simp [htr]) (by simp [htr])
        rw [hb]
        cases b
        · exact ih _ htags2
        · exact ih _ htags2
    | RANGE =>
      cases rem with
      | nil => simp only [execPush, htr]; exact ih _ htags2
      | cons c cs =>
        simp only [execPush, htr]
        obtain ⟨b, hb⟩ := matches_isOk r c (by simp [htr]) (by simp [htr])
        rw [hb]
        cases b
        · exact ih _ htags2
        · exact ih _ htags2
    | SPECIAL =>
      cases rem with
      | nil => simp only [execPush, htr]; exact ih _ htags2
      | cons c cs =>
        simp only [execPush, htr]
        obtain ⟨b, hb⟩ := matches_isOk r c (by simp [htr])
          (fun _ => htags r (List.mem_cons_self r rs) htr)
        rw [hb]
        cases b
        · exact ih _ htags2
        · exact ih _ htags2

/-! ### Termination of the search loop -/

/-- Each per-state rule list is no longer than the total rule count. -/
theorem length_le_totalRules (nfa : NFA) (rs : List Rule) (h : rs ∈ nfa.rules) :
    rs.length ≤ totalRules nfa := by
  rw [totalRules]
  exact List.single_le_sum (fun x _ => Nat.zero_le x) _ (List.mem_map_of_mem List.length h)

/-- The base of the measure is positive. -/
theorem ruleBase_pos (nfa : NFA) : 0 < ruleBase nfa := by
  rw [ruleBase]; omega

/-- Adding a fresh epsilon configuration to the visited set releases one
unit of potential. -/
theorem visPot_cons (nfa : NFA) (text : PyStr) (cfg : Cfg) (visited : List Cfg)
    (h1 : cfg ∈ epsCfgs nfa text) (h2 : cfg ∉ visited) :
    visPot nfa text (cfg :: visited) + ruleBase nfa ^ (text.length + 2) =
      visPot nfa text visited := by
  have hmem : cfg ∈ epsCfgs nfa text \ visited.toFinset :=
    Finset.mem_sdiff.mpr ⟨h1, fun hc => h2 (List.mem_toFinset.mp hc)⟩
  have hcard : (epsCfgs nfa text \ (cfg :: visited).toFinset).card =
      (epsCfgs nfa text \ visited.toFinset).card - 1 := by
    rw [List.toFinset_cons, Finset.sdiff_insert, Finset.card_erase_of_mem hmem]
  have hpos : 0 < (epsCfgs nfa text \ visited.toFinset).card :=
    Finset.card_pos.mpr ⟨cfg, hmem⟩
  rw [visPot, visPot, hcard, ← Nat.mul_succ, Nat.succ_eq_add_one,
      Nat.sub_add_cancel hpos]

/-- `execPush` increases the measure by at most `b ^ |remaining|` per
processed rule: a consuming push weighs exactly that much, and an epsilon
push is fully paid for by the released visited-set potential. -/
theorem execPush_measure (nfa : NFA) (text : PyStr) (rem : PyStr) (step : Nat)
    (hsuf : rem <:+ text) :
    ∀ (rs : List Rule) (stack : List Frame) (visited : List Cfg) (st2 : List Frame)
      (vis2 : List Cfg),
      (∀ r ∈ rs, r.dst ∈ dstList nfa) →
      execPush rem step rs (stack, visited) = Except.ok (st2, vis2) →
      stackWt nfa st2 + visPot nfa text vis2 ≤
        stackWt nfa stack + visPot nfa text visited +
          rs.length * ruleBase nfa ^ rem.length := by
  intro rs
  induction rs with
  | nil =>
    intro stack visited st2 vis2 _ h
    simp only [execPush, Except.ok.injEq, Prod.mk.injEq] at h
    rw [← h.1, ← h.2]
    simp
  | cons r rs ih =>
    intro stack visited st2 vis2 hdst h
    have hdst2 : ∀ r2 ∈ rs, r2.dst ∈ dstList nfa :=
      fun r2 hr2 => hdst r2 (List.mem_cons_of_mem r hr2)
    have hmul : rs.length * ruleBase nfa ^ rem.length ≤
        (r :: rs).length * ruleBase nfa ^ rem.length := by
      simp only [List.length_cons]
      exact Nat.mul_le_mul_right _ (Nat.le_succ _)
    have hlen : (r :: rs).length * ruleBase nfa ^ rem.length =
        rs.length * ruleBase nfa ^ rem.length + ruleBase nfa ^ rem.length := by
      simp only [List.length_cons, Nat.succ_mul]
    rcases execPush_step_cases rem step r rs stack visited st2 vis2 h with
      ⟨_, _, h⟩ | ⟨_, hnv, h⟩ | ⟨_, _, h⟩ | ⟨_, c, cs, hrem, _, h⟩ | ⟨_, _, _, _, _, h⟩
    · have := ih stack visited st2 vis2 hdst2 h
      omega
    · have hx : (r.dst, rem) ∈ epsCfgs nfa text := by
        rw [epsCfgs]
        exact Finset.mem_product.mpr
          ⟨List.mem_toFinset.mpr (hdst r (List.mem_cons_self r rs)),
           List.mem_toFinset.mpr ((List.mem_tails rem text).mpr hsuf)⟩
      have hpot := visPot_cons nfa text (r.dst, rem) visited hx hnv
      have hIH := ih _ _ st2 vis2 hdst2 h
      have hfw : stackWt nfa ((r.dst, rem, step + 1) :: stack) =
          ruleBase nfa ^ (1 + rem.length) + stackWt nfa stack := by
        simp [stackWt, frameWt]
      have hble : ruleBase nfa ^ (1 + rem.length) ≤ ruleBase nfa ^ (text.length + 2) := by
        refine Nat.pow_le_pow_right (ruleBase_pos nfa) ?_
        have := hsuf.length_le
        omega
      rw [hfw] at hIH
      omega
    · have := ih stack visited st2 vis2 hdst2 h
      omega
    · have hIH := ih _ _ st2 vis2 hdst2 h
      have hfw : stackWt nfa ((r.dst, cs, step + 1) :: stack) =
          ruleBase nfa ^ (1 + cs.length) + stackWt nfa stack := by
        simp [stackWt, frameWt]
      have hexp : ruleBase nfa ^ (1 + cs.length) = ruleBase nfa ^ rem.length := by
        rw [hrem]
        simp [Nat.add_comm]
      rw [hfw, hexp] at hIH
      omega
    · have := ih stack visited st2 vis2 hdst2 h
      omega

/-- One full loop iteration strictly decreases the measure. -/
theorem execStep_measure (nfa : NFA) (text : PyStr) (rem : PyStr) (q step : Nat)
    (rest : List Frame) (visited : List Cfg) (rs : List Rule) (stack2 : List Frame)
    (vis2 : List Cfg) (hsuf : rem <:+ text)
    (hrs : pyIndex nfa.rules q = Except.ok rs)
    (hpush : execPush rem step rs.reverse (rest, visited) = Except.ok (stack2, vis2)) :
    execMeasure nfa text stack2 vis2 <
      execMeasure nfa text ((q, rem, step) :: rest) visited := by
  have hmem : rs ∈ nfa.rules := by
    rw [pyIndex] at hrs
    cases hg : nfa.rules.get? q with
    | none => rw [hg] at hrs; cases hrs
    | some rs2 =>
      rw [hg] at hrs
      cases hrs
      exact List.get?_mem hg
  have hdst : ∀ r ∈ rs.reverse, r.dst ∈ dstList nfa := by
    intro r hr
    rw [dstList]
    exact List.mem_map_of_mem Rule.dst
      (List.mem_flatten.mpr ⟨rs, hmem, List.mem_reverse.mp hr⟩)
  have hm := execPush_measure nfa text rem step hsuf rs.reverse rest visited stack2 vis2
    hdst hpush
  have hlen : rs.reverse.length + 2 ≤ ruleBase nfa := by
    rw [List.length_reverse, ruleBase]
    have := length_le_totalRules nfa rs hmem
    omega
  have hX1 : 1 ≤ ruleBase nfa ^ rem.length :=
    Nat.one_le_pow _ _ (ruleBase_pos nfa)
  have hfw : stackWt nfa ((q, rem, step) :: rest) =
      ruleBase nfa ^ (1 + rem.length) + stackWt nfa rest := by
    simp [stackWt, frameWt]
  have hsplit : ruleBase nfa ^ (1 + rem.length) =
      ruleBase nfa * ruleBase nfa ^ rem.length := by
    rw [pow_add, pow_one]
  have hmul : (rs.reverse.length + 2) * ruleBase nfa ^ rem.length ≤
      ruleBase nfa * ruleBase nfa ^ rem.length :=
    Nat.mul_le_mul_right _ hlen
  have hexpand : (rs.reverse.length + 2) * ruleBase nfa ^ rem.length =
      rs.reverse.length * ruleBase nfa ^ rem.length + 2 * ruleBase nfa ^ rem.length := by
    rw [Nat.add_mul]
  rw [execMeasure, execMeasure, hfw, hsplit]
  omega

/-- `execPush` preserves the invariant that every remaining string on the
stack is a suffix of the input. -/
theorem execStep_suffix (text : PyStr) (rem : PyStr) (step : Nat) (rs : List Rule)
    (rest : List Frame) (visited : List Cfg) (stack2 : List Frame) (vis2 : List Cfg)
    (hsuf : rem <:+ text) (hrest : ∀ f ∈ rest, f.2.1 <:+ text)
    (hpush : execPush rem step rs (rest, visited) = Except.ok (stack2, vis2)) :
    ∀ f ∈ stack2, f.2.1 <:+ text := by
  intro f hf
  rcases execPush_origin rem step rs rest visited stack2 vis2 hpush f hf with
    hold | ⟨r, hr, h1, h2, h3⟩
  · exact hrest f hold
  · rcases h3 with ⟨_, hrem⟩ | ⟨_, c, cs, hrem, hfr, _⟩
    · rw [hrem]; exact hsuf
    · rw [hfr]
      exact (List.suffix_cons c cs).trans (hrem ▸ hsuf)

/-- With fuel exceeding the measure, the loop always returns a result. -/
theorem execLoop_terminates (nfa : NFA) (text : PyStr) :
    ∀ (fuel : Nat) (stack : List Frame) (path : Trace) (visited : List Cfg),
      (∀ f ∈ stack, f.2.1 <:+ text) →
      execMeasure nfa text stack visited < fuel →
      ∃ r, execLoop nfa fuel stack path visited = some r := by
  intro fuel
  induction fuel with
  | zero => intro stack path visited _ hm; omega
  | succ fuel ih =>
    intro stack path visited hsuf hm
    cases stack with
    | nil => exact ⟨Except.ok none, by simp [execLoop]⟩
    | cons f rest =>
      obtain ⟨q, rem, step⟩ := f
      have hsufq : rem <:+ text := hsuf (q, rem, step) (List.mem_cons_self _ _)
      cases hfin : pyIndex nfa.is_final q with
      | error e => exact ⟨Except.error e, by simp [execLoop, hfin]⟩
      | ok fin =>
        by_cases hacc : (fin && rem.isEmpty) = true
        · cases hbt : NFA.backtrace (traceSet path step (q, rem)) with
          | error e => exact ⟨Except.error e, by simp [execLoop, hfin, hacc, hbt]⟩
          | ok p => exact ⟨Except.ok (some p), by simp [execLoop, hfin, hacc, hbt]⟩
        · cases hrs : pyIndex nfa.rules q with
          | error e => exact ⟨Except.error e, by simp [execLoop, hfin, hacc, hrs]⟩
          | ok rs =>
            cases hpush : execPush rem step rs.reverse (rest, visited) with
            | error e =>
              exact ⟨Except.error e, by simp [execLoop, hfin, hacc, hrs, hpush]⟩
            | ok out =>
              obtain ⟨stack2, vis2⟩ := out
              have hsuf2 := execStep_suffix text rem step rs.reverse rest visited stack2
                vis2 hsufq (fun g hg => hsuf g (List.mem_cons_of_mem _ hg)) hpush
              have hlt := execStep_measure nfa text rem q step rest visited rs stack2
                vis2 hsufq hrs hpush
              obtain ⟨r, hr⟩ := ih stack2 (traceSet path step (q, rem)) vis2 hsuf2 (by omega)
              refine ⟨r, ?_⟩
              simp only [execLoop, hfin, hacc, hrs, hpush]
              simpa using hr

/-! ### Completeness: an accepting run is never missed -/

/-- `AccRunN` is monotone in the step bound. -/
theorem accRunN_mono (nfa : NFA) {n : Nat} {q : Nat} {rem : PyStr}
    (h : AccRunN nfa n q rem) : ∀ m, n ≤ m → AccRunN nfa m q rem := by
  induction h with
  | final n q hf => intro m _; exact AccRunN.final m q hf
  | eps n q rem r hr ht h ih =>
    intro m hm
    cases m with
    | zero => omega
    | succ m2 => exact AccRunN.eps m2 q rem r hr ht (ih m2 (by omega))
  | cons n q c cs r hr ht hmt h ih =>
    intro m hm
    cases m with
    | zero => omega
    | succ m2 => exact AccRunN.cons m2 q c cs r hr ht hmt (ih m2 (by omega))

/-- A successful `rules[q]` subscription yields exactly `rulesAt q`. -/
theorem rulesAt_of_pyIndex (nfa : NFA) (q : Nat) (rs : List Rule)
    (h : pyIndex nfa.rules q = Except.ok rs) : nfa.rulesAt q = rs := by
  rw [pyIndex] at h
  cases hg : nfa.rules.get? q with
  | none => rw [hg] at h; cases h
  | some rs2 =>
    rw [hg] at h
    cases h
    rw [NFA.rulesAt, hg]
    rfl

/-- A rule of `rulesAt q` belongs to some entry of the rule table. -/
theorem mem_rulesAt_cases (nfa : NFA) (q : Nat) (r : Rule) (h : r ∈ nfa.rulesAt q) :
    ∃ rs, nfa.rules.get? q = some rs ∧ r ∈ rs := by
  rw [NFA.rulesAt] at h
  cases hg : nfa.rules.get? q with
  | none => rw [hg] at h; cases h
  | some rs => rw [hg] at h; exact ⟨rs, rfl, h⟩

/-- Key step for completeness: when a non-accepting frame that accepts
within `n` steps is expanded, some frame of the new stack accepts within
`n` steps. -/
theorem execStep_stackAcc (nfa : NFA) :
    ∀ (n : Nat) (q : Nat) (rem : PyStr) (s : Nat) (rest : List Frame) (visited : List Cfg)
      (fin : Bool) (rs : List Rule) (stack2 : List Frame) (vis2 : List Cfg),
      pyIndex nfa.is_final q = Except.ok fin →
      (fin && rem.isEmpty) = false →
      pyIndex nfa.rules q = Except.ok rs →
      execPush rem s rs.reverse (rest, visited) = Except.ok (stack2, vis2) →
      VisInv nfa ((q, rem, s) :: rest) visited →
      AccRunN nfa n q rem →
      StackAcc nfa n stack2 := by
  intro n
  induction n using Nat.strong_induction_on with
  | _ n ih =>
    intro q rem s rest visited fin rs stack2 vis2 hfin hacc hrs hpush hvis hrun
    cases hrun with
    | final _ _ hf =>
      rw [hfin] at hf
      injection hf with hf2
      rw [hf2] at hacc
      simp at hacc
    | eps n2 q2 rem2 r hr ht hrun2 =>
      have hrs2 : nfa.rulesAt q = rs := rulesAt_of_pyIndex nfa q rs hrs
      have hrrev : r ∈ rs.reverse := List.mem_reverse.mpr (hrs2 ▸ hr)
      rcases execPush_eps_complete rem s rs.reverse rest visited stack2 vis2 hpush r
        hrrev ht with hin | hin
      · exact ⟨(r.dst, rem, s + 1), hin, accRunN_mono nfa hrun2 _ (Nat.le_succ _)⟩
      · obtain ⟨f, hf, hfacc⟩ := hvis n2 (r.dst, rem) hin hrun2
        rcases List.mem_cons.mp hf with heq | hf2
        · have hq : AccRunN nfa n2 q rem := by rw [heq] at hfacc; exact hfacc
          obtain ⟨g, hg, hgacc⟩ := ih n2 (by omega) q rem s rest visited fin rs stack2
            vis2 hfin hacc hrs hpush hvis hq
          exact ⟨g, hg, accRunN_mono nfa hgacc _ (Nat.le_succ _)⟩
        · obtain ⟨pre, hpre⟩ :=
            (execPush_shape rem s rs.reverse rest visited stack2 vis2 hpush).1
          exact ⟨f, hpre ▸ List.mem_append_right pre hf2,
            accRunN_mono nfa hfacc _ (Nat.le_succ _)⟩
    | cons n2 q2 c cs r hr ht hmt hrun2 =>
      have hrs2 : nfa.rulesAt q = rs := rulesAt_of_pyIndex nfa q rs hrs
      have hrrev : r ∈ rs.reverse := List.mem_reverse.mpr (hrs2 ▸ hr)
      have hin := execPush_cons_complete (c :: cs) s rs.reverse rest visited stack2 vis2
        hpush r hrrev c cs rfl ht hmt
      exact ⟨(r.dst, cs, s + 1), hin, accRunN_mono nfa hrun2 _ (Nat.le_succ _)⟩

/-- The visited-set invariant is preserved by one loop iteration. -/
theorem execStep_visInv (nfa : NFA) (q : Nat) (rem : PyStr) (s : Nat) (rest : List Frame)
    (visited : List Cfg) (fin : Bool) (rs : List Rule) (stack2 : List Frame)
    (vis2 : List Cfg)
    (hfin : pyIndex nfa.is_final q = Except.ok fin)
    (hacc : (fin && rem.isEmpty) = false)
    (hrs : pyIndex nfa.rules q = Except.ok rs)
    (hpush : execPush rem s rs.reverse (rest, visited) = Except.ok (stack2, vis2))
    (hvis : VisInv nfa ((q, rem, s) :: rest) visited) :
    VisInv nfa stack2 vis2 := by
  intro n cfg hcfg hrun
  rcases execPush_visited_mem rem s rs.reverse rest visited stack2 vis2 hpush cfg hcfg with
    hold | ⟨s2, hst⟩
  · obtain ⟨f, hf, hfacc⟩ := hvis n cfg hold hrun
    rcases List.mem_cons.mp hf with heq | hf2
    · have hq : AccRunN nfa n q rem := by rw [heq] at hfacc; exact hfacc
      exact execStep_stackAcc nfa n q rem s rest visited fin rs stack2 vis2 hfin hacc hrs
        hpush hvis hq
    · obtain ⟨pre, hpre⟩ := (execPush_shape rem s rs.reverse rest visited stack2 vis2 hpush).1
      exact ⟨f, hpre ▸ List.mem_append_right pre hf2, hfacc⟩
  · exact ⟨(cfg.1, cfg.2, s2), hst, hrun⟩

/-- Completeness of the loop: with an accepting frame on the stack and the
visited-set invariant, the loop never reports rejection. -/
theorem execLoop_complete (nfa : NFA) :
    ∀ (fuel : Nat) (stack : List Frame) (path : Trace) (visited : List Cfg)
      (r : Except String (Option Path)) (n : Nat),
      VisInv nfa stack visited → StackAcc nfa n stack →
      execLoop nfa fuel stack path visited = some r →
      r ≠ Except.ok none := by
  intro fuel
  induction fuel with
  | zero => intro stack path visited r n _ _ h; simp [execLoop] at h
  | succ fuel ih =>
    intro stack path visited r n hvis hsacc hrun
    cases stack with
    | nil => obtain ⟨f, hf, _⟩ := hsacc; cases hf
    | cons f rest =>
      obtain ⟨q, rem, step⟩ := f
      cases hfin : pyIndex nfa.is_final q with
      | error e =>
        simp [execLoop, hfin] at hrun
        rw [← hrun]
        simp
      | ok fin =>
        by_cases hacc : (fin && rem.isEmpty) = true
        · cases hbt : NFA.backtrace (traceSet path step (q, rem)) with
          | error e =>
            simp [execLoop, hfin, hacc, hbt] at hrun
            rw [← hrun]
            simp
          | ok p =>
            simp [execLoop, hfin, hacc, hbt] at hrun
            rw [← hrun]
            simp
        · cases hrs : pyIndex nfa.rules q with
          | error e =>
            simp [execLoop, hfin, hacc, hrs] at hrun
            rw [← hrun]
            simp
          | ok rs =>
            cases hpush : execPush rem step rs.reverse (rest, visited) with
            | error e =>
              simp [execLoop, hfin, hacc, hrs, hpush] at hrun
              rw [← hrun]
              simp
            | ok out =>
              obtain ⟨stack2, vis2⟩ := out
              have hacc2 : (fin && rem.isEmpty) = false := by
                revert hacc
                cases (fin && rem.isEmpty)
                · intro _; rfl
                · intro hacc; exact absurd rfl hacc
              have hvis2 := execStep_visInv nfa q rem step rest visited fin rs stack2 vis2
                hfin hacc2 hrs hpush hvis
              obtain ⟨g, hg, hgacc⟩ := hsacc
              have hsacc2 : StackAcc nfa n stack2 := by
                rcases List.mem_cons.mp hg with heq | hg2
                · have hq : AccRunN nfa n q rem := by rw [heq] at hgacc; exact hgacc
                  exact execStep_stackAcc nfa n q rem step rest visited fin rs stack2 vis2
                    hfin hacc2 hrs hpush hvis hq
                · obtain ⟨pre, hpre⟩ :=
                    (execPush_shape rem step rs.reverse rest visited stack2 vis2 hpush).1
                  exact ⟨g, hpre ▸ List.mem_append_right pre hg2, hgacc⟩
              have hrec : execLoop nfa fuel stack2 (traceSet path step (q, rem)) vis2 =
                  some r := by
                simpa [execLoop, hfin, hacc, hrs, hpush] using hrun
              exact ih stack2 (traceSet path step (q, rem)) vis2 r n hvis2 hsacc2 hrec

/-! ### Soundness: a result other than None implies an accepting run -/

/-- A successful list subscription returns a list member. -/
theorem pyIndex_mem {α : Type} (xs : List α) (i : Nat) (x : α)
    (h : pyIndex xs i = Except.ok x) : x ∈ xs := by
  rw [pyIndex] at h
  cases hg : xs.get? i with
  | none => rw [hg] at h; cases h
  | some y => rw [hg] at h; cases h; exact List.get?_mem hg

/-- An in-range index makes the subscription succeed. -/
theorem pyIndex_isOk {α : Type} (xs : List α) (i : Nat) (h : i < xs.length) :
    ∃ x, pyIndex xs i = Except.ok x := by
  cases hg : xs.get? i with
  | none =>
    rw [List.get?_eq_none] at hg
    omega
  | some x =>
    have hg2 : xs[i]? = some x := by rw [← List.get?_eq_getElem?]; exact hg
    exact ⟨x, by simp [pyIndex, hg2]⟩

/-- In a well-formed automaton every reachable state is in range. -/
theorem reach_state_lt (nfa : NFA) (text : PyStr) (hwf : nfa.WF) :
    ∀ {q : Nat} {rem : PyStr}, Reach nfa text q rem → q < nfa.num_states := by
  intro q rem h
  induction h with
  | init => exact hwf.1
  | eps q2 rem2 r h hr ht ih =>
    obtain ⟨rs, hg, hrm⟩ := mem_rulesAt_cases nfa q2 r hr
    exact hwf.2.2.2 rs (List.get?_mem hg) r hrm
  | step q2 c cs r h hr ht hm ih =>
    obtain ⟨rs, hg, hrm⟩ := mem_rulesAt_cases nfa q2 r hr
    exact hwf.2.2.2 rs (List.get?_mem hg) r hrm

/-- An accepting run from a reachable configuration yields an accepting
run from the initial configuration. -/
theorem reach_accRun (nfa : NFA) (text : PyStr) :
    ∀ {q : Nat} {rem : PyStr}, Reach nfa text q rem →
      ∀ n, AccRunN nfa n q rem → AccRun nfa 0 text := by
  intro q rem h
  induction h with
  | init => exact fun n hn => ⟨n, hn⟩
  | eps q2 rem2 r h hr ht ih =>
    exact fun n hn => ih (n + 1) (AccRunN.eps n q2 rem2 r hr ht hn)
  | step q2 c cs r h hr ht hm ih =>
    exact fun n hn => ih (n + 1) (AccRunN.cons n q2 c cs r hr ht hm hn)

/-- One loop iteration only pushes reachable configurations. -/
theorem execStep_reach (nfa : NFA) (text : PyStr) (rem : PyStr) (q step : Nat)
    (rest : List Frame) (visited : List Cfg) (rs : List Rule) (stack2 : List Frame)
    (vis2 : List Cfg)
    (hq : Reach nfa text q rem)
    (hrest : ∀ f ∈ rest, Reach nfa text f.1 f.2.1)
    (hrs : pyIndex nfa.rules q = Except.ok rs)
    (hpush : execPush rem step rs.reverse (rest, visited) = Except.ok (stack2, vis2)) :
    ∀ f ∈ stack2, Reach nfa text f.1 f.2.1 := by
  intro f hf
  rcases execPush_origin rem step rs.reverse rest visited stack2 vis2 hpush f hf with
    hold | ⟨r, hr, h1, h2, h3⟩
  · exact hrest f hold
  · have hrq : r ∈ nfa.rulesAt q := by
      rw [rulesAt_of_pyIndex nfa q rs hrs]
      exact List.mem_reverse.mp hr
    rcases h3 with ⟨ht, hrem⟩ | ⟨ht, c, cs, hrem, hfr, hm⟩
    · rw [h1, hrem]
      exact Reach.eps q rem r hq hrq ht
    · rw [h1, hfr]
      exact Reach.step q c cs r (hrem ▸ hq) hrq ht hm

/-- Soundness of the loop under well-formedness: every returned result is
either None or comes with an accepting run from the initial configuration. -/
theorem execLoop_sound (nfa : NFA) (text : PyStr) (hwf : nfa.WF)
    (htags : nfa.KnownTags) :
    ∀ (fuel : Nat) (stack : List Frame) (path : Trace) (visited : List Cfg)
      (r : Except String (Option Path)),
      (∀ f ∈ stack, Reach nfa text f.1 f.2.1) →
      execLoop nfa fuel stack path visited = some r →
      r = Except.ok none ∨ AccRun nfa 0 text := by
  intro fuel
  induction fuel with
  | zero => intro stack path visited r _ h; simp [execLoop] at h
  | succ fuel ih =>
    intro stack path visited r hreach hrun
    cases stack with
    | nil =>
      simp [execLoop] at hrun
      exact Or.inl hrun.symm
    | cons f rest =>
      obtain ⟨q, rem, step⟩ := f
      have hq : Reach nfa text q rem := hreach _ (List.mem_cons_self _ _)
      have hqlt : q < nfa.num_states := reach_state_lt nfa text hwf hq
      obtain ⟨fin, hfin⟩ := pyIndex_isOk nfa.is_final q (by rw [hwf.2.1]; exact hqlt)
      by_cases hacc : (fin && rem.isEmpty) = true
      · have hfin_true : fin = true := by
          revert hacc; cases fin <;> simp
        have hremnil : rem = [] := by
          revert hacc
          cases rem
          · intro _; rfl
          · intro hacc; simp at hacc
        rw [hfin_true] at hfin
        have hacc0 : AccRunN nfa 0 q [] := AccRunN.final 0 q hfin
        exact Or.inr (reach_accRun nfa text (hremnil ▸ hq) 0 hacc0)
      · obtain ⟨rs, hrs⟩ := pyIndex_isOk nfa.rules q (by rw [hwf.2.2.1]; exact hqlt)
        have hrsmem : rs ∈ nfa.rules := pyIndex_mem nfa.rules q rs hrs
        have htags2 : ∀ r2 ∈ rs.reverse, r2.type = RuleType.SPECIAL →
            r2.by_ ∈ specialTags :=
          fun r2 hr2 => htags rs hrsmem r2 (List.mem_reverse.mp hr2)
        obtain ⟨out, hpush⟩ := execPush_isOk rem step rs.reverse (rest, visited) htags2
        obtain ⟨stack2, vis2⟩ := out
        have hreach2 := execStep_reach nfa text rem q step rest visited rs stack2 vis2
          hq (fun g hg => hreach g (List.mem_cons_of_mem _ hg)) hrs hpush
        have hrec : execLoop nfa fuel stack2 (traceSet path step (q, rem)) vis2 =
            some r := by
          simpa [execLoop, hfin, hacc, hrs, hpush] using hrun
        exact ih stack2 (traceSet path step (q, rem)) vis2 r hreach2 hrec

/-- The loop run by `exec` always yields a result within fuel `execBound`. -/
theorem execLoop_init_terminates (nfa : NFA) (text : PyStr) :
    ∃ r, execLoop nfa (execBound nfa text) [(0, text, 0)] [] [] = some r := by
  refine execLoop_terminates nfa text (execBound nfa text) [(0, text, 0)] [] [] ?_ ?_
  · intro f hf
    simp only [List.mem_singleton] at hf
    rw [hf]
  · rw [execBound]
    omega

/-! ### Trace lemmas and key contiguity -/

/-- Looking up the key just stored. -/
theorem traceGet_set_self (path : Trace) (k : Nat) (v : Cfg) :
    traceGet (traceSet path k v) k = Except.ok v := by
  simp [traceGet, traceSet]

/-- Storing at one key leaves other lookups unchanged. -/
theorem traceGet_set_ne (path : Trace) (k : Nat) (v : Cfg) (j : Nat) (h : k ≠ j) :
    traceGet (traceSet path k v) j = traceGet path j := by
  simp [traceGet, traceSet, h]

/-- A successful lookup means the key occurs in the trace. -/
theorem traceGet_key_mem (path : Trace) (k : Nat) (v : Cfg)
    (h : traceGet path k = Except.ok v) : k ∈ path.map Prod.fst := by
  induction path with
  | nil => cases h
  | cons p rest ih =>
    obtain ⟨k2, v2⟩ := p
    by_cases hk : k2 = k
    · simp [hk]
    · rw [traceGet, if_neg hk] at h
      simp only [List.map_cons, List.mem_cons]
      exact Or.inr (ih h)

/-- A key occurring in the trace can be looked up. -/
theorem mem_key_traceGet (path : Trace) (k : Nat) (h : k ∈ path.map Prod.fst) :
    ∃ v, traceGet path k = Except.ok v := by
  induction path with
  | nil => cases h
  | cons p rest ih =>
    obtain ⟨k2, v2⟩ := p
    by_cases hk : k2 = k
    · exact ⟨v2, by simp [traceGet, hk]⟩
    · simp only [List.map_cons, List.mem_cons] at h
      rcases h with h | h
      · exact absurd h.symm hk
      · obtain ⟨v, hv⟩ := ih h
        exact ⟨v, by rw [traceGet, if_neg hk]; exact hv⟩

/-- The left fold of `max` bounds its start value and every list element. -/
theorem foldl_max_bounds (l : List Nat) :
    ∀ a, a ≤ l.foldl max a ∧ ∀ x ∈ l, x ≤ l.foldl max a := by
  induction l with
  | nil => intro a; exact ⟨le_refl a, by intro x hx; cases hx⟩
  | cons y ys ih =>
    intro a
    obtain ⟨h1, h2⟩ := ih (max a y)
    refine ⟨le_trans (le_max_left a y) h1, ?_⟩
    intro x hx
    rcases List.mem_cons.mp hx with hx | hx
    · rw [hx]; exact le_trans (le_max_right a y) h1
    · exact h2 x hx

/-- The left fold of `max` is the start value or a list element. -/
theorem foldl_max_mem (l : List Nat) :
    ∀ a, l.foldl max a = a ∨ l.foldl max a ∈ l := by
  induction l with
  | nil => intro a; exact Or.inl rfl
  | cons y ys ih =>
    intro a
    rcases ih (max a y) with h | h
    · rcases max_choice a y with hm | hm
      · exact Or.inl (by rw [List.foldl_cons, h, hm])
      · refine Or.inr ?_
        rw [List.foldl_cons, h, hm]
        exact List.mem_cons_self y ys
    · exact Or.inr (List.mem_cons_of_mem y h)

/-- `max(path.keys())` is itself a key, and bounds every key. -/
theorem traceMax_spec (path : Trace) (M : Nat) (h : traceMax path = Except.ok M) :
    (∃ v, traceGet path M = Except.ok v) ∧
    ∀ k v, traceGet path k = Except.ok v → k ≤ M := by
  cases path with
  | nil => cases h
  | cons p rest =>
    obtain ⟨k0, v0⟩ := p
    rw [traceMax] at h
    injection h with hM
    have hfold : rest.foldl (fun m p => max m p.1) k0 =
        (rest.map Prod.fst).foldl max k0 := by
      rw [List.foldl_map]
    constructor
    · apply mem_key_traceGet
      rcases foldl_max_mem (rest.map Prod.fst) k0 with he | he
      · rw [← hM, hfold, he]
        simp
      · rw [← hM, hfold]
        simp only [List.map_cons, List.mem_cons]
        exact Or.inr he
    · intro k v hk
      have hmem := traceGet_key_mem ((k0, v0) :: rest) k v hk
      simp only [List.map_cons, List.mem_cons] at hmem
      obtain ⟨h1, h2⟩ := foldl_max_bounds (rest.map Prod.fst) k0
      rcases hmem with hmem | hmem
      · rw [hmem, ← hM, hfold]; exact h1
      · rw [← hM, hfold]; exact h2 k hmem

/-- `backtraceAux` cannot raise `KeyError` when all keys up to `n` are
present. -/
theorem backtraceAux_no_keyError (path : Trace) :
    ∀ n, (∀ j, j ≤ n → ∃ v, traceGet path j = Except.ok v) →
      backtraceAux path n ≠ Except.error "KeyError" := by
  intro n
  induction n with
  | zero => intro _ hcon; exact Except.noConfusion hcon
  | succ n ih =>
    intro hkeys
    obtain ⟨v1, hv1⟩ := hkeys (n + 1) (le_refl _)
    obtain ⟨v0, hv0⟩ := hkeys n (by omega)
    have ihne := ih (fun j hj => hkeys j (by omega))
    simp only [backtraceAux, hv1, hv0]
    by_cases heq : v1.2 = v0.2
    · rw [if_pos (beq_iff_eq.mpr heq)]
      cases haux : backtraceAux path n with
      | error e =>
        intro hcon
        injection hcon with he
        exact ihne (by rw [haux, he])
      | ok pr =>
        obtain ⟨sts, cons⟩ := pr
        simp
    · rw [if_neg (fun hcon => heq (beq_iff_eq.mp hcon))]
      cases hv02 : v0.2 with
      | nil => simp [hv02]
      | cons c cs =>
        simp only [hv02]
        cases haux : backtraceAux path n with
        | error e =>
          intro hcon
          injection hcon with he
          exact ihne (by rw [haux, he])
        | ok pr =>
          obtain ⟨sts, cons⟩ := pr
          simp

/-- `backtrace` cannot raise `KeyError` on a trace whose keys form a
nonempty contiguous range. -/
theorem backtrace_no_keyError (path : Trace) (m : Nat)
    (hkeys : ∀ j, (∃ v, traceGet path j = Except.ok v) ↔ j < m)
    (hne : 0 < m) :
    NFA.backtrace path ≠ Except.error "KeyError" := by
  obtain ⟨v0, hv0⟩ := (hkeys 0).mpr hne
  cases hmax : traceMax path with
  | error e =>
    cases path with
    | nil => cases hv0
    | cons p rest => rw [traceMax] at hmax; cases hmax
  | ok M =>
    have hMkey := (traceMax_spec path M hmax).1
    have haux := backtraceAux_no_keyError path M
      (fun j hj => (hkeys j).mpr (by
        have := (hkeys M).mp hMkey
        omega))
    simp only [NFA.backtrace, hmax]
    cases haux2 : backtraceAux path M with
    | error e =>
      simp only [haux2]
      intro hcon
      injection hcon with he
      exact haux (by rw [haux2, he])
    | ok pr =>
      obtain ⟨sts, cons⟩ := pr
      simp [haux2]

/-- Invariant of reachable loop states: trace keys form a contiguous range
and every stack frame has all keys below its step index present. -/
theorem execReach_trace_inv (nfa : NFA) (text : PyStr) :
    ∀ (stack : List Frame) (path : Trace) (visited : List Cfg),
      ExecReach nfa text stack path visited →
      (∃ m, ∀ j, (∃ v, traceGet path j = Except.ok v) ↔ j < m) ∧
      (∀ f ∈ stack, ∀ j, j < f.2.2 → ∃ v, traceGet path j = Except.ok v) := by
  intro stack path visited h
  induction h with
  | init =>
    refine ⟨⟨0, ?_⟩, ?_⟩
    · intro j
      simp [traceGet]
    · intro f hf j hj
      simp only [List.mem_singleton] at hf
      rw [hf] at hj
      simp at hj
  | step q rem s rest path visited fin rs stack2 vis2 h hfin hacc hrs hpush ih =>
    obtain ⟨⟨m, hm⟩, hframes⟩ := ih
    have hsm : s ≤ m := by
      cases hs : s with
      | zero => omega
      | succ s2 =>
        have := hframes (q, rem, s) (List.mem_cons_self _ _) s2 (show s2 < s by omega)
        have := (hm s2).mp this
        omega
    have hget2 : ∀ j, j ≠ s → traceGet (traceSet path s (q, rem)) j = traceGet path j :=
      fun j hj => traceGet_set_ne path s (q, rem) j (fun he => hj he.symm)
    have hcontig : ∀ j, (∃ v, traceGet (traceSet path s (q, rem)) j = Except.ok v) ↔
        j < max m (s + 1) := by
      intro j
      by_cases hj : j = s
      · rw [hj]
        constructor
        · intro _; omega
        · intro _; exact ⟨(q, rem), traceGet_set_self path s (q, rem)⟩
      · rw [hget2 j hj, hm j]
        omega
    refine ⟨⟨max m (s + 1), hcontig⟩, ?_⟩
    intro f hf j hj
    rcases execPush_origin rem s rs.reverse rest visited stack2 vis2 hpush f hf with
      hold | ⟨r, hr, h1, h2, h3⟩
    · have := hframes f (List.mem_cons_of_mem _ hold) j hj
      exact (hcontig j).mpr (by
        have := (hm j).mp this
        omega)
    · rw [h2] at hj
      refine (hcontig j).mpr ?_
      by_cases hjs : j = s
      · omega
      · have hjlt : j < s := by omega
        have := hframes (q, rem, s) (List.mem_cons_self _ _) j hjlt
        have := (hm j).mp this
        omega

/-! ### The recorded trace is a genuine run up to the accepting step -/

/-- A chain at `s` in particular records `(q, rem)` at key `s`. -/
theorem chainFrame_get (text : PyStr) (path : Trace) :
    ∀ (s : Nat) (q : Nat) (rem : PyStr), ChainFrame text path s q rem →
      traceGet path s = Except.ok (q, rem) := by
  intro s q rem h
  cases s with
  | zero => simp only [ChainFrame] at h; exact h.1
  | succ s2 => simp only [ChainFrame] at h; exact h.1

/-- A chain only looks at keys `≤ s`, so storing at a higher key keeps it. -/
theorem chainFrame_update (text : PyStr) (path : Trace) (k : Nat) (v : Cfg) :
    ∀ (s : Nat) (q : Nat) (rem : PyStr), s < k → ChainFrame text path s q rem →
      ChainFrame text (traceSet path k v) s q rem := by
  intro s
  induction s with
  | zero =>
    intro q rem hk hc
    simp only [ChainFrame] at hc ⊢
    exact ⟨by rw [traceGet_set_ne path k v 0 (by omega)]; exact hc.1, hc.2⟩
  | succ s ih =>
    intro q rem hk hc
    simp only [ChainFrame] at hc ⊢
    obtain ⟨hget, q2, rem2, hcf, hshape⟩ := hc
    exact ⟨by rw [traceGet_set_ne path k v (s + 1) (by omega)]; exact hget,
      q2, rem2, ih q2 rem2 (by omega) hcf, hshape⟩

/-- Recording a popped frame turns its pre-chain into a full chain. -/
theorem chainPre_record (text : PyStr) (path : Trace) (q : Nat) (rem : PyStr) (s : Nat)
    (h : ChainPre text path (q, rem, s)) :
    ChainFrame text (traceSet path s (q, rem)) s q rem := by
  simp only [ChainPre] at h
  rcases h with ⟨h0, hq, hrem⟩ | ⟨s2, hs, q2, rem2, hcf, hshape⟩
  · have hz : s = 0 := h0
    subst hz
    simp only [ChainFrame]
    exact ⟨traceGet_set_self path 0 (q, rem), hq, hrem⟩
  · have hz : s = s2 + 1 := hs
    subst hz
    simp only [ChainFrame]
    exact ⟨traceGet_set_self path (s2 + 1) (q, rem), q2, rem2,
      chainFrame_update text path (s2 + 1) (q, rem) s2 q2 rem2 (by omega) hcf, hshape⟩

/-- Recording at a key at least as large as a frame's step keeps that
frame's pre-chain. -/
theorem chainPre_update (text : PyStr) (path : Trace) (k : Nat) (v : Cfg) (f : Frame)
    (hle : f.2.2 ≤ k) (h : ChainPre text path f) :
    ChainPre text (traceSet path k v) f := by
  simp only [ChainPre] at h ⊢
  rcases h with ⟨h0, hq, hrem⟩ | ⟨s2, hs, q2, rem2, hcf, hshape⟩
  · exact Or.inl ⟨h0, hq, hrem⟩
  · exact Or.inr ⟨s2, hs, q2, rem2,
      chainFrame_update text path k v s2 q2 rem2 (by omega) hcf, hshape⟩

/-- The frames `execPush` prepends all carry step `step + 1` and a
remaining string equal to the popped one or its tail. -/
theorem execPush_pre (rem : PyStr) (step : Nat) :
    ∀ (rs : List Rule) (stack : List Frame) (visited : List Cfg) (st2 : List Frame)
      (vis2 : List Cfg),
      execPush rem step rs (stack, visited) = Except.ok (st2, vis2) →
      ∃ pre, st2 = pre ++ stack ∧
        ∀ g ∈ pre, g.2.2 = step + 1 ∧ (g.2.1 = rem ∨ ∃ c, rem = c :: g.2.1) := by
  intro rs
  induction rs with
  | nil =>
    intro stack visited st2 vis2 h
    simp only [execPush, Except.ok.injEq, Prod.mk.injEq] at h
    exact ⟨[], by simp [h.1.symm], by intro g hg; cases hg⟩
  | cons r rs ih =>
    intro stack visited st2 vis2 h
    rcases execPush_step_cases rem step r rs stack visited st2 vis2 h with
      ⟨_, _, h⟩ | ⟨_, _, h⟩ | ⟨_, _, h⟩ | ⟨_, c, cs, hrem, _, h⟩ | ⟨_, _, _, _, _, h⟩
    · exact ih stack visited st2 vis2 h
    · obtain ⟨pre, hpre, hprop⟩ := ih _ _ st2 vis2 h
      refine ⟨pre ++ [(r.dst, rem, step + 1)], by simp [hpre], ?_⟩
      intro g hg
      rcases List.mem_append.mp hg with hg | hg
      · exact hprop g hg
      · simp only [List.mem_singleton] at hg
        rw [hg]
        exact ⟨rfl, Or.inl rfl⟩
    · exact ih stack visited st2 vis2 h
    · obtain ⟨pre, hpre, hprop⟩ := ih _ _ st2 vis2 h
      refine ⟨pre ++ [(r.dst, cs, step + 1)], by simp [hpre], ?_⟩
      intro g hg
      rcases List.mem_append.mp hg with hg | hg
      · exact hprop g hg
      · simp only [List.mem_singleton] at hg
        rw [hg]
        exact ⟨rfl, Or.inr ⟨c, hrem⟩⟩
    · exact ih stack visited st2 vis2 h

/-- One loop iteration preserves the chain invariant. -/
theorem execStep_stackChain (text : PyStr) (q : Nat) (rem : PyStr) (s : Nat)
    (rest : List Frame) (visited : List Cfg) (rs : List Rule) (stack2 : List Frame)
    (vis2 : List Cfg) (path : Trace)
    (hpush : execPush rem s rs (rest, visited) = Except.ok (stack2, vis2))
    (hinv : StackChain text ((q, rem, s) :: rest) path) :
    StackChain text stack2 (traceSet path s (q, rem)) := by
  obtain ⟨hpair, hpre⟩ := hinv
  have hrest_le : ∀ g ∈ rest, g.2.2 ≤ s := (List.pairwise_cons.mp hpair).1
  have hrest_pair : List.Pairwise (fun f g => g.2.2 ≤ f.2.2) rest :=
    (List.pairwise_cons.mp hpair).2
  obtain ⟨pre, hshape, hprop⟩ := execPush_pre rem s rs rest visited stack2 vis2 hpush
  have hrec : ChainFrame text (traceSet path s (q, rem)) s q rem :=
    chainPre_record text path q rem s (hpre (q, rem, s) (List.mem_cons_self _ _))
  constructor
  · rw [hshape]
    refine List.pairwise_append.mpr ⟨?_, hrest_pair, ?_⟩
    · refine List.pairwise_of_forall_mem_list ?_
      intro a ha b hb
      rw [(hprop a ha).1, (hprop b hb).1]
    · intro a ha b hb
      rw [(hprop a ha).1]
      have := hrest_le b hb
      omega
  · intro f hf
    rw [hshape] at hf
    rcases List.mem_append.mp hf with hf | hf
    · obtain ⟨hstep, hshape2⟩ := hprop f hf
      simp only [ChainPre]
      exact Or.inr ⟨s, hstep, q, rem, hrec, (by
        rcases hshape2 with h1 | ⟨c, h1⟩
        · exact Or.inl h1.symm
        · exact Or.inr ⟨c, h1⟩)⟩
    · exact chainPre_update text path s (q, rem) f (hrest_le f hf) (hpre f (List.mem_cons_of_mem _ hf))

/-- Whenever the loop returns a Path, some trace `path2` records a genuine
chain ending at an accepting configuration `(q, "")` and `backtrace` on
`path2` produced that Path. -/
theorem execLoop_path (nfa : NFA) (text : PyStr) :
    ∀ (fuel : Nat) (stack : List Frame) (path : Trace) (visited : List Cfg) (p : Path),
      StackChain text stack path →
      execLoop nfa fuel stack path visited = some (Except.ok (some p)) →
      ∃ s q path2, ChainFrame text path2 s q [] ∧
        NFA.backtrace path2 = Except.ok p := by
  intro fuel
  induction fuel with
  | zero => intro stack path visited p _ h; simp [execLoop] at h
  | succ fuel ih =>
    intro stack path visited p hinv hrun
    cases stack with
    | nil => simp [execLoop] at hrun
    | cons f rest =>
      obtain ⟨q, rem, step⟩ := f
      cases hfin : pyIndex nfa.is_final q with
      | error e => simp [execLoop, hfin] at hrun
      | ok fin =>
        by_cases hacc : (fin && rem.isEmpty) = true
        · cases hbt : NFA.backtrace (traceSet path step (q, rem)) with
          | error e => simp [execLoop, hfin, hacc, hbt] at hrun
          | ok p2 =>
            simp only [execLoop, hfin] at hrun
            rw [if_pos hacc] at hrun
            rw [hbt] at hrun
            have hp2 : p2 = p := by
              injection hrun with h1
              injection h1 with h2
              injection h2
            have hremnil : rem = [] := by
              revert hacc
              cases rem
              · intro _; rfl
              · intro hacc; simp at hacc
            subst hremnil
            refine ⟨step, q, traceSet path step (q, []), ?_, by rw [hp2] at hbt; exact hbt⟩
            exact chainPre_record text path q [] step
              (hinv.2 (q, [], step) (List.mem_cons_self _ _))
        · cases hrs : pyIndex nfa.rules q with
          | error e => simp [execLoop, hfin, hacc, hrs] at hrun
          | ok rs =>
            cases hpush : execPush rem step rs.reverse (rest, visited) with
            | error e => simp [execLoop, hfin, hacc, hrs, hpush] at hrun
            | ok out =>
              obtain ⟨stack2, vis2⟩ := out
              have hinv2 := execStep_stackChain text q rem step rest visited rs.reverse
                stack2 vis2 path hpush hinv
              have hrec : execLoop nfa fuel stack2 (traceSet path step (q, rem)) vis2 =
                  some (Except.ok (some p)) := by
                simpa [execLoop, hfin, hacc, hrs, hpush] using hrun
              exact ih stack2 (traceSet path step (q, rem)) vis2 p hinv2 hrec

/-- Inversion of one successful `backtraceAux` iteration. -/
theorem backtraceAux_succ_inv (path : Trace) (n : Nat) (sts : List Nat)
    (cons : List PyStr) (h : backtraceAux path (n + 1) = Except.ok (sts, cons)) :
    ∃ v1 v0 con sts0 cons0,
      traceGet path (n + 1) = Except.ok v1 ∧ traceGet path n = Except.ok v0 ∧
      backtraceAux path n = Except.ok (sts0, cons0) ∧
      sts = v1.1 :: sts0 ∧ cons = con :: cons0 ∧
      ((v1.2 = v0.2 ∧ con = []) ∨
       (v1.2 ≠ v0.2 ∧ ∃ c cs, v0.2 = c :: cs ∧ con = [c])) := by
  cases hget1 : traceGet path (n + 1) with
  | error e => simp only [backtraceAux, hget1] at h; exact Except.noConfusion h
  | ok v1 =>
    cases hget0 : traceGet path n with
    | error e => simp only [backtraceAux, hget1, hget0] at h; exact Except.noConfusion h
    | ok v0 =>
      simp only [backtraceAux, hget1, hget0] at h
      by_cases heq : v1.2 = v0.2
      · rw [if_pos (beq_iff_eq.mpr heq)] at h
        cases haux : backtraceAux path n with
        | error e => rw [haux] at h; cases h
        | ok pr =>
          obtain ⟨sts0, cons0⟩ := pr
          rw [haux] at h
          injection h with h2
          injection h2 with h3 h4
          exact ⟨v1, v0, [], sts0, cons0, rfl, rfl, rfl, h3.symm, h4.symm,
            Or.inl ⟨heq, rfl⟩⟩
      · rw [if_neg (fun hcon => heq (beq_iff_eq.mp hcon))] at h
        cases hv02 : v0.2 with
        | nil => simp only [hv02] at h; exact Except.noConfusion h
        | cons c cs =>
          simp only [hv02] at h
          cases haux : backtraceAux path n with
          | error e => rw [haux] at h; cases h
          | ok pr =>
            obtain ⟨sts0, cons0⟩ := pr
            rw [haux] at h
            injection h with h2
            injection h2 with h3 h4
            exact ⟨v1, v0, [c], sts0, cons0, rfl, rfl, rfl, h3.symm, h4.symm,
              Or.inr ⟨heq, c, cs, hv02, rfl⟩⟩

/-- `backtraceAux path n` produces lists of length exactly `n`. -/
theorem backtraceAux_lengths (path : Trace) :
    ∀ (n : Nat) (sts : List Nat) (cons : List PyStr),
      backtraceAux path n = Except.ok (sts, cons) →
      sts.length = n ∧ cons.length = n := by
  intro n
  induction n with
  | zero =>
    intro sts cons h
    simp only [backtraceAux, Except.ok.injEq, Prod.mk.injEq] at h
    rw [← h.1, ← h.2]
    exact ⟨rfl, rfl⟩
  | succ n ih =>
    intro sts cons h
    obtain ⟨v1, v0, con, sts0, cons0, _, _, haux, hsts, hcons, _⟩ :=
      backtraceAux_succ_inv path n sts cons h
    obtain ⟨h1, h2⟩ := ih sts0 cons0 haux
    rw [hsts, hcons]
    simp [h1, h2]

/-- Along a recorded chain, the consumed symbols concatenate (in reverse
recording order) to the input minus the final remaining string. -/
theorem backtraceAux_chain_join (text : PyStr) (path : Trace) :
    ∀ (s : Nat) (q : Nat) (rem : PyStr) (sts : List Nat) (cons : List PyStr),
      ChainFrame text path s q rem → backtraceAux path s = Except.ok (sts, cons) →
      cons.reverse.flatten ++ rem = text := by
  intro s
  induction s with
  | zero =>
    intro q rem sts cons hc h
    simp only [ChainFrame] at hc
    simp only [backtraceAux, Except.ok.injEq, Prod.mk.injEq] at h
    rw [← h.2]
    simpa using hc.2.2
  | succ s ih =>
    intro q rem sts cons hc h
    simp only [ChainFrame] at hc
    obtain ⟨hget, q2, rem2, hcf, hshape⟩ := hc
    obtain ⟨v1, v0, con, sts0, cons0, hg1, hg0, haux, hsts, hcons, hcases⟩ :=
      backtraceAux_succ_inv path s sts cons h
    have hv1 : v1 = (q, rem) := by
      rw [hget] at hg1
      injection hg1 with h2
      exact h2.symm
    have hg0x := chainFrame_get text path s q2 rem2 hcf
    have hv0 : v0 = (q2, rem2) := by
      rw [hg0x] at hg0
      injection hg0 with h2
      exact h2.symm
    have hIH := ih q2 rem2 sts0 cons0 hcf haux
    rcases hcases with ⟨heq, hcon⟩ | ⟨hne, c, cs, hv02, hcon⟩
    · have hrr : rem2 = rem := by
        rw [hv1, hv0] at heq
        exact heq.symm
      rw [hcons, hcon]
      simp only [List.reverse_cons, List.flatten_append, List.flatten_cons,
        List.flatten_nil, List.append_nil]
      rw [← hrr]
      exact hIH
    · rcases hshape with hsh | ⟨c2, hsh⟩
      · exact absurd (by rw [hv1, hv0]; exact hsh.symm) hne
      · rw [hv0] at hv02
        have hcast : c2 :: rem = c :: cs := by rw [← hsh]; exact hv02
        injection hcast with hc1 hc2
        rw [hcons, hcon]
        simp only [List.reverse_cons, List.flatten_append, List.flatten_cons,
          List.flatten_nil, List.append_nil]
        rw [List.append_assoc]
        have : [c] ++ rem = rem2 := by rw [hsh, hc1]; rfl
        rw [this]
        exact hIH

/-- Above the accepting step all recorded remaining strings are empty, and
the corresponding consumed entries are all empty. -/
theorem backtraceAux_stale (path : Trace) (s : Nat) (q : Nat)
    (hsget : traceGet path s = Except.ok (q, [])) :
    ∀ (d : Nat) (sts : List Nat) (cons : List PyStr),
      backtraceAux path (s + d) = Except.ok (sts, cons) →
      ∃ sts0 cons0 highs, backtraceAux path s = Except.ok (sts0, cons0) ∧
        cons = highs ++ cons0 ∧ (∀ x ∈ highs, x = []) ∧
        ∃ qd, traceGet path (s + d) = Except.ok (qd, []) := by
  intro d
  induction d with
  | zero =>
    intro sts cons h
    refine ⟨sts, cons, [], h, by simp, ?_, q, ?_⟩
    · intro x hx; cases hx
    · simpa using hsget
  | succ d ih =>
    intro sts cons h
    have hidx : s + (d + 1) = (s + d) + 1 := by omega
    rw [hidx] at h
    obtain ⟨v1, v0, con, sts0x, cons0x, hg1, hg0, haux, hsts, hcons, hcases⟩ :=
      backtraceAux_succ_inv path (s + d) sts cons h
    obtain ⟨sts0, cons0, highs, hauxs, hconseq, hhighs, qd, hqd⟩ := ih sts0x cons0x haux
    have hv0 : v0 = (qd, []) := by
      rw [hqd] at hg0
      injection hg0 with h2
      exact h2.symm
    rcases hcases with ⟨heq, hcon⟩ | ⟨hne, c, cs, hv02, hcon⟩
    · refine ⟨sts0, cons0, con :: highs, hauxs, ?_, ?_, v1.1, ?_⟩
      · rw [hcons, hconseq]
        rfl
      · intro x hx
        rcases List.mem_cons.mp hx with hx | hx
        · rw [hx, hcon]
        · exact hhighs x hx
      · rw [hidx, hg1]
        have hv12 : v1.2 = [] := by rw [heq, hv0]
        rw [show v1 = (v1.1, v1.2) from rfl, hv12]
    · exfalso
      rw [hv0] at hv02
      exact List.noConfusion hv02

/-- Inversion of a successful `exec`: the returned Path comes from
`backtrace` on a trace recording a genuine chain from `(0, text)` to an
accepting `(q, "")` at some step `s ≤ max(path.keys())`. -/
theorem exec_path_inv (nfa : NFA) (text : PyStr) (p : Path)
    (h : nfa.exec text = Except.ok (some p)) :
    ∃ path2 M sts cons s q,
      traceMax path2 = Except.ok M ∧
      backtraceAux path2 M = Except.ok (sts, cons) ∧
      p = ⟨(sts ++ [0]).reverse, cons.reverse⟩ ∧
      ChainFrame text path2 s q [] ∧ s ≤ M := by
  obtain ⟨r, hr⟩ := execLoop_init_terminates nfa text
  have hexec : nfa.exec text = r := by simp [NFA.exec, hr]
  have hloop : execLoop nfa (execBound nfa text) [(0, text, 0)] [] [] =
      some (Except.ok (some p)) := by
    rw [hexec] at h
    rw [h] at hr
    exact hr
  have hinit : StackChain text [(0, text, 0)] [] := by
    constructor
    · exact List.pairwise_singleton _ _
    · intro f hf
      simp only [List.mem_singleton] at hf
      rw [hf]
      simp [ChainPre]
  obtain ⟨s, q, path2, hcf, hbt⟩ := execLoop_path nfa text (execBound nfa text)
    [(0, text, 0)] [] [] p hinit hloop
  cases hmax : traceMax path2 with
  | error e =>
    simp only [NFA.backtrace, hmax] at hbt
    exact Except.noConfusion hbt
  | ok M =>
    simp only [NFA.backtrace, hmax] at hbt
    cases haux : backtraceAux path2 M with
    | error e =>
      simp only [haux] at hbt
      exact Except.noConfusion hbt
    | ok pr =>
      obtain ⟨sts, cons⟩ := pr
      simp only [haux] at hbt
      injection hbt with hbt2
      have hsget := chainFrame_get text path2 s q [] hcf
      have hsM : s ≤ M := (traceMax_spec path2 M hmax).2 s (q, []) hsget
      exact ⟨path2, M, sts, cons, s, q, hmax, haux, hbt2.symm, hcf, hsM⟩

/-- C7: `Rule.match` on a SPECIAL rule with class tag `d` returns true
exactly on the ASCII decimal digits `'0'`–`'9'`. -/
theorem special_d_matches_ascii_digit (r : Rule) (c : Char)
    (ht : r.type = RuleType.SPECIAL) (hb : r.by_ = 'd') :
    r.matches c = Except.ok true ↔ ('0' ≤ c ∧ c ≤ '9') := by
  simp [Rule.matches, ht, hb, pyIsdigit]

/-- Witness for C7: the digit `'7'` is matched by a `\d` rule. -/
theorem special_d_matches_ascii_digit_witness :
    (⟨0, RuleType.SPECIAL, 'd', ' '⟩ : Rule).matches '7' = Except.ok true :=
  (special_d_matches_ascii_digit ⟨0, RuleType.SPECIAL, 'd', ' '⟩ '7' rfl rfl).mpr (by decide)

/-- C8: `Rule.match` raises exactly on epsilon rules and on SPECIAL rules
with an unknown class tag; on every other rule it returns a boolean. -/
theorem matches_error_characterization (r : Rule) (c : Char) :
    ((∃ e, r.matches c = Except.error e) ↔
      (r.type = RuleType.EPSILON ∨ (r.type = RuleType.SPECIAL ∧ r.by_ ∉ specialTags))) ∧
    ((∃ b, r.matches c = Except.ok b) ↔
      ¬(r.type = RuleType.EPSILON ∨ (r.type = RuleType.SPECIAL ∧ r.by_ ∉ specialTags))) := by
  obtain ⟨dst, ty, b, t⟩ := r
  cases ty with
  | NORMAL => simp [Rule.matches]
  | RANGE => simp [Rule.matches]
  | EPSILON => simp [Rule.matches]
  | SPECIAL =>
    simp only [Rule.matches]
    split_ifs with h1 h2 h3 h4 h5 h6 h7 <;>
      simp_all [specialTags, beq_iff_eq]

/-- C9: when state 0 is marked final and the input is empty, `exec`
accepts immediately with the path `states = [0]`, `consumes = []`. -/
theorem exec_empty_final_start (nfa : NFA) (h : nfa.is_final.get? 0 = some true) :
    nfa.exec [] = Except.ok (some ⟨[0], []⟩) := by
  have h2 : nfa.is_final[0]? = some true := by
    simpa [List.get?_eq_getElem?] using h
  simp [NFA.exec, execBound, execLoop, pyIndex, h2, NFA.backtrace, traceMax,
        traceSet, backtraceAux]

/-- Witness for C9: the one-state automaton with a final start state. -/
theorem exec_empty_final_start_witness :
    nfaUnit.exec [] = Except.ok (some ⟨[0], []⟩) :=
  exec_empty_final_start nfaUnit rfl

/-- C3 (bug evaluation): on `nfaStale` with input "a", `exec` accepts but
returns a path whose last state is the stale, non-final state 3. -/
theorem exec_last_state_not_final_bug :
    nfaStale.exec ['a'] = Except.ok (some ⟨[0, 4, 2, 3], [['a'], [], []]⟩) ∧
    (⟨[0, 4, 2, 3], [['a'], [], []]⟩ : Path).states.getLast? = some 3 ∧
    nfaStale.is_final.get? 3 = some false :=
  ⟨by decide, by decide, by decide⟩

/-- C4 (bug evaluation): on `nfaCrash` with input "a" the search pops the
accepting configuration `(4, "")`, yet `backtrace` fails with `IndexError`
because it walks stale trace entries down from `max(path.keys())`. -/
theorem backtrace_raises_on_accepting_input :
    nfaCrash.exec ['a'] = Except.error "IndexError" := by decide

/-- C1 (counterexample to "populated Path whenever an accepting run
exists"): `nfaCrash` has an accepting run on "a", but `exec` raises
`IndexError` instead of returning a Path. -/
theorem exec_accepting_run_without_path :
    AccRun nfaCrash 0 ['a'] ∧ nfaCrash.exec ['a'] = Except.error "IndexError" := by
  refine ⟨⟨1, AccRunN.cons 0 0 'a' [] ⟨4, RuleType.NORMAL, 'a', ' '⟩ ?_ ?_ ?_ ?_⟩, by decide⟩
  · decide
  · decide
  · decide
  · exact AccRunN.final 0 4 (by decide)

/-- C5 (counterexample to "terminates with either a Path or None"): on the
well-formed automaton `nfaCrash` with known tags, `exec` on input "a"
terminates with an `IndexError` — neither a Path nor None. -/
theorem exec_result_neither_path_nor_none :
    NFA.WF nfaCrash ∧ NFA.KnownTags nfaCrash ∧
    nfaCrash.exec ['a'] = Except.error "IndexError" :=
  ⟨by simp only [NFA.WF]; decide, by simp only [NFA.KnownTags]; decide, by decide⟩

/-- C1 (amended): for every well-formed automaton with known class tags,
`exec` returns None exactly when no accepting run exists; when an accepting
run exists, `exec` never returns None (it returns a populated Path or
aborts with an error — the error case is reachable, see the stale-trace
bug exhibited on `nfaCrash`). -/
theorem exec_none_iff_no_accepting_run (nfa : NFA) (text : PyStr)
    (hwf : nfa.WF) (htags : nfa.KnownTags) :
    (nfa.exec text = Except.ok none ↔ ¬ AccRun nfa 0 text) ∧
    (AccRun nfa 0 text → nfa.exec text ≠ Except.ok none) := by
  obtain ⟨r, hr⟩ := execLoop_init_terminates nfa text
  have hexec : nfa.exec text = r := by simp [NFA.exec, hr]
  have hiff : nfa.exec text = Except.ok none ↔ ¬ AccRun nfa 0 text := by
    constructor
    · intro hnone hacc
      obtain ⟨n, hn⟩ := hacc
      refine execLoop_complete nfa (execBound nfa text) [(0, text, 0)] [] [] r n
        ?_ ⟨(0, text, 0), List.mem_cons_self _ _, hn⟩ hr ?_
      · intro m cfg hc
        cases hc
      · rw [← hexec]
        exact hnone
    · intro hno
      have hinit : ∀ f ∈ [((0 : Nat), text, (0 : Nat))], Reach nfa text f.1 f.2.1 := by
        intro f hf
        simp only [List.mem_singleton] at hf
        rw [hf]
        exact Reach.init
      rcases execLoop_sound nfa text hwf htags (execBound nfa text) [(0, text, 0)] [] [] r
        hinit hr with h1 | h2
      · rw [hexec, h1]
      · exact absurd h2 hno
  exact ⟨hiff, fun hacc hnone => (hiff.mp hnone) hacc⟩

/-- Witness for C1: on the two-state automaton and the rejected input "b",
the amended equivalence holds concretely. -/
theorem exec_none_iff_no_accepting_run_witness :
    (nfaSimple.exec ['b'] = Except.ok none ↔ ¬ AccRun nfaSimple 0 ['b']) ∧
    (AccRun nfaSimple 0 ['b'] → nfaSimple.exec ['b'] ≠ Except.ok none) :=
  exec_none_iff_no_accepting_run nfaSimple ['b']
    (by simp only [NFA.WF]; decide) (by simp only [NFA.KnownTags]; decide)

/-- C5 (amended): for every automaton and every input — epsilon self-loops
and epsilon cycles included — the search loop finishes within the concrete
iteration bound `execBound`, and `exec` returns that result (a Path, None,
or a raised error — the error outcome is reachable on `nfaCrash`). -/
theorem exec_terminates_within_bound (nfa : NFA) (text : PyStr) :
    ∃ r, execLoop nfa (execBound nfa text) [(0, text, 0)] [] [] = some r ∧
      nfa.exec text = r := by
  obtain ⟨r, hr⟩ := execLoop_init_terminates nfa text
  exact ⟨r, hr, by simp [NFA.exec, hr]⟩

/-- C10: throughout any `exec` call the trace keys always form a contiguous
range `0..k` (stated as: the defined keys are exactly `{j | j < m}` for
some `m`), and consequently the `path[i]` / `path[i-1]` lookups `backtrace`
performs after any frame is popped and recorded never hit a missing key —
`backtrace` can never raise `KeyError`. -/
theorem exec_trace_keys_contiguous (nfa : NFA) (text : PyStr) (stack : List Frame)
    (path : Trace) (visited : List Cfg) (h : ExecReach nfa text stack path visited) :
    (∃ m, ∀ j, (∃ v, traceGet path j = Except.ok v) ↔ j < m) ∧
    ∀ f ∈ stack, NFA.backtrace (traceSet path f.2.2 (f.1, f.2.1)) ≠
      Except.error "KeyError" := by
  obtain ⟨⟨m, hm⟩, hframes⟩ := execReach_trace_inv nfa text stack path visited h
  refine ⟨⟨m, hm⟩, ?_⟩
  intro f hf
  obtain ⟨q, rem, s⟩ := f
  have hsm : s ≤ m := by
    rcases Nat.eq_zero_or_pos s with hz | hp
    · omega
    · have h1 := hframes (q, rem, s) hf (s - 1) (show s - 1 < s by omega)
      have := (hm (s - 1)).mp h1
      omega
  have hcontig : ∀ j, (∃ v, traceGet (traceSet path s (q, rem)) j = Except.ok v) ↔
      j < max m (s + 1) := by
    intro j
    by_cases hj : j = s
    · rw [hj]
      constructor
      · intro _; omega
      · intro _; exact ⟨(q, rem), traceGet_set_self path s (q, rem)⟩
    · rw [traceGet_set_ne path s (q, rem) j (fun he => hj he.symm), hm j]
      omega
  exact backtrace_no_keyError _ (max m (s + 1)) hcontig (by omega)

/-- Witness for C10: the initial reachable loop state of `nfaSimple` on
input "a". -/
theorem exec_trace_keys_contiguous_witness :
    (∃ m, ∀ j, (∃ v, traceGet ([] : Trace) j = Except.ok v) ↔ j < m) ∧
    ∀ f ∈ [((0 : Nat), ['a'], (0 : Nat))],
      NFA.backtrace (traceSet [] f.2.2 (f.1, f.2.1)) ≠ Except.error "KeyError" :=
  exec_trace_keys_contiguous nfaSimple ['a'] [(0, ['a'], 0)] [] [] ExecReach.init

/-- C2: whenever `exec` returns a Path, concatenating its consumed symbols
in order (empty epsilon symbols vanish in the concatenation) reproduces the
input exactly: the entries up to the accepting step spell out the input,
and any stale entries beyond it are forced to be empty, since a non-empty
one would have made `backtrace` raise instead of returning a Path. -/
theorem exec_path_consumes_join (nfa : NFA) (text : PyStr) (p : Path)
    (h : nfa.exec text = Except.ok (some p)) :
    p.consumes.flatten = text := by
  obtain ⟨path2, M, sts, cons, s, q, hmax, haux, hp, hcf, hsM⟩ :=
    exec_path_inv nfa text p h
  have hsget := chainFrame_get text path2 s q [] hcf
  obtain ⟨d, hd⟩ : ∃ d, M = s + d := ⟨M - s, by omega⟩
  rw [hd] at haux
  obtain ⟨sts0, cons0, highs, hauxs, hconseq, hhighs, qd, hqd⟩ :=
    backtraceAux_stale path2 s q hsget d sts cons haux
  have hlow := backtraceAux_chain_join text path2 s q [] sts0 cons0 hcf hauxs
  rw [List.append_nil] at hlow
  rw [hp]
  show cons.reverse.flatten = text
  rw [hconseq, List.reverse_append, List.flatten_append, hlow]
  have hnil : highs.reverse.flatten = [] :=
    List.flatten_eq_nil_iff.mpr (fun l hl => hhighs l (List.mem_reverse.mp hl))
  rw [hnil, List.append_nil]

/-- Witness for C2: the accepted run of `nfaSimple` on "a". -/
theorem exec_path_consumes_join_witness :
    (⟨[0, 1], [['a']]⟩ : Path).consumes.flatten = ['a'] :=
  exec_path_consumes_join nfaSimple ['a'] ⟨[0, 1], [['a']]⟩ (by decide)

/-- C6: whenever `exec` returns a Path, its states list starts with 0 and
its consumes list is exactly one shorter than its states list. -/
theorem exec_path_head_zero_and_lengths (nfa : NFA) (text : PyStr) (p : Path)
    (h : nfa.exec text = Except.ok (some p)) :
    p.states.head? = some 0 ∧ p.consumes.length = p.states.length - 1 := by
  obtain ⟨path2, M, sts, cons, s, q, hmax, haux, hp, hcf, hsM⟩ :=
    exec_path_inv nfa text p h
  obtain ⟨hl1, hl2⟩ := backtraceAux_lengths path2 M sts cons haux
  rw [hp]
  constructor
  · show ((sts ++ [0]).reverse).head? = some 0
    rw [List.reverse_append]
    rfl
  · show cons.reverse.length = ((sts ++ [0]).reverse).length - 1
    simp [hl1, hl2]

/-- Witness for C6: the accepted run of `nfaSimple` on "a". -/
theorem exec_path_head_zero_and_lengths_witness :
    (⟨[0, 1], [['a']]⟩ : Path).states.head? = some 0 ∧
    (⟨[0, 1], [['a']]⟩ : Path).consumes.length =
      (⟨[0, 1], [['a']]⟩ : Path).states.length - 1 :=
  exec_path_head_zero_and_lengths nfaSimple ['a'] ⟨[0, 1], [['a']]⟩ (by decide)

end PyNfa
